import Mathlib

/-!
# Tick-driven state machine of `box/meta/machine.go`

A shallow embedding of the generic state machine (`State[T]`, `StateMachine[T]`)
and theorems about its registration, transition and trigger operations.

Modelling conventions.

* The key type `T` (`string | int32` in the source) is any type with decidable
  equality; Go's zero value of `T` is `default`.
* `map[T]*State[T]` is an association list with at most one binding looked up
  per key (`mapGet` returns the first, `mapSet` overwrites it in place or
  appends).  A `State` value carries the address `ptr` of the Go object it
  shows; bindings with the same `ptr` show one object.  `current` is kept by
  value: no method of the package writes a `Name`, and callers are taken not
  to write to a `State` they have registered, so a `*State` sits under one
  key of a machine only and the cell `current` points at (`new(T)` or
  `&state.Name`) always holds the value it had when it was stored.
* A nil `*State` is `none`.  The back reference `machine *StateMachine[T]` is
  the address of the owner (`none` for nil); a machine knows its own address.
* A program with several machines is a `World`.  What a method writes through
  a `*State` (lines 24, 133 and 134) shows in every binding of that State, in
  whatever machine, and a back reference is followed to the machine it points
  to (`World.RegisterState`, `World.trigger`).  The functions on one
  `StateMachine` are those of a program with that machine alone
  (`world_call_alone`); the unexported field `machine` is written by
  `RegisterState` only, so no State of such a program points to another
  machine.
* `uint` is taken 64 bits wide, as on 64-bit targets; the width enters through
  `uintSize` only.
* A bound `Action` is identified by a number, and so is its `Args` payload;
  calling the action is recorded as an invocation, its body is not modelled
  and does not touch the machine.
* Channels `quit` and `stopped` are booleans: `true` once closed.
* Log lines are recorded by severity only.
* Go panics are `Fault`s.
-/

namespace Pareto

/-- Number of values of Go's `uint` (64 bit): `tickCnt++` wraps at this
modulus. -/
def uintSize : Nat := 2 ^ 64

/-- Severity of a logrus line. -/
inductive Log where
  | error
  | info
  | debug
  | trace
deriving DecidableEq

/-- Go run-time panics a call can end in. -/
inductive Fault where
  | nilDereference
  | closeOfClosedChannel
deriving DecidableEq

/-- State is the state meta info (`State[T]`). -/
structure State (T : Type) where
  /-- name of this state -/
  Name : T
  /-- optional ticks to wait before trigger action, 0 means no wait -/
  Ticks : Nat
  /-- action of this state when ticks expire; `none` is a nil func -/
  Action : Option Nat
  /-- payload handed to the action -/
  Args : Nat
  /-- ticks already passed after started -/
  tickCnt : Nat
  /-- reference to owner -/
  machine : Option Nat
  /-- address of this `State` (what a `*State[T]` holds) -/
  ptr : Nat
deriving DecidableEq

/-- StateMachine sums all states and related options (`StateMachine[T]`).
`addr` is the address the machine lives at (what `sm` points to) and `loops`
counts the goroutines started with `go sm.loop()`; the other fields are those
of the Go struct. -/
structure StateMachine (T : Type) where
  addr : Nat
  name : String
  states : List (T × State T)
  starting : T
  stopping : T
  saved : T
  current : T
  /-- whether the ticker is running -/
  ticker : Bool
  precision : Int
  /-- whether channel `quit` is closed -/
  quit : Bool
  /-- whether channel `stopped` is closed -/
  stopped : Bool
  trace : Bool
  loops : Nat
deriving DecidableEq

/-- Result of a method that returns `bool`: the value returned, the machine
afterwards and the log lines written. -/
structure Ret (T : Type) where
  ok : Bool
  sm : StateMachine T
  logs : List Log
deriving DecidableEq

/-- Result of a method without return value. -/
structure Done (T : Type) where
  sm : StateMachine T
  logs : List Log
  fault : Option Fault
deriving DecidableEq

/-- Result of `State.trigger`: the state afterwards, the calls of
`s.Action(s.Args)` made (action, args), whether `close(s.machine.stopped)` is
reached, the log lines written before that, and a panic if one happened. -/
structure Fired (T : Type) where
  state : State T
  invoked : List (Nat × Nat)
  closes : Bool
  logs : List Log
  fault : Option Fault
deriving DecidableEq

/-- Result of `StateMachine.trigger`. -/
structure Triggered (T : Type) where
  sm : StateMachine T
  invoked : List (Nat × Nat)
  logs : List Log
  fault : Option Fault
deriving DecidableEq

section Defs

variable {T : Type} [DecidableEq T]

/-- Map read `m[k]`: `none` when `k` is not a key. -/
def mapGet : List (T × State T) → T → Option (State T)
  | [], _ => none
  | (k1, v) :: m, k => if k1 = k then some v else mapGet m k

/-- Map write `m[k] = v`: overwrites the binding of `k` or adds one. -/
def mapSet : List (T × State T) → T → State T → List (T × State T)
  | [], k, v => [(k, v)]
  | (k1, v1) :: m, k, v => if k1 = k then (k, v) :: m else (k1, v1) :: mapSet m k v

/-- The trigger of one state, lines 23-45.  `owner` is what `s.machine`
points to (`none` when it is nil). -/
def State.trigger (s : State T) (owner : Option (StateMachine T)) : Fired T :=
  let s1 : State T := { s with tickCnt := (s.tickCnt + 1) % uintSize }
  if s1.Ticks = 0 ∨ s1.tickCnt % s1.Ticks = 0 then
    match s1.Action with
    | none => ⟨s1, [], false, [], none⟩
    | some a =>
      match owner with
      | none =>
        -- every read of `s.machine.x` panics
        if s1.tickCnt % 5 = 0 then ⟨s1, [], false, [], some Fault.nilDereference⟩
        else ⟨s1, [(a, s1.Args)], false, [], some Fault.nilDereference⟩
      | some m =>
        let l : List Log := if s1.tickCnt % 5 = 0 ∧ m.trace = true then [Log.debug] else []
        if s1.Name = m.stopping then ⟨s1, [(a, s1.Args)], true, l, none⟩
        else ⟨s1, [(a, s1.Args)], false, l, none⟩
  else ⟨s1, [], false, [], none⟩

/-- NewStateMachine creates a new state machine with the given name and
ticker duration, at address `addr`.  `time.NewTicker` panics on a duration
that is not positive: then there is no machine. -/
def NewStateMachine [Inhabited T] (addr : Nat) (name : String) (precision : Int) :
    Option (StateMachine T) :=
  if precision ≤ 0 then none
  else some
    { addr := addr
      name := name
      states := []
      starting := default
      stopping := default
      saved := default
      current := default
      ticker := true
      precision := precision
      quit := false
      stopped := false
      trace := false
      loops := 0 }

/-- GetState returns the current state. -/
def StateMachine.GetState (sm : StateMachine T) : T := sm.current

/-- EnableStateTrace enables or disables the tracing of internal flow. -/
def StateMachine.EnableStateTrace (sm : StateMachine T) (enable : Bool) : StateMachine T :=
  { sm with trace := enable }

/-- MoveToState moves the current state to the given one. -/
def StateMachine.MoveToState (sm : StateMachine T) (s : T) : Ret T :=
  if sm.GetState = s then ⟨true, sm, [Log.trace]⟩
  else
    match mapGet sm.states s with
    | none => ⟨false, sm, [Log.error]⟩
    | some state =>
      ⟨true, { sm with current := state.Name }, if sm.trace = true then [Log.debug] else []⟩

/-- RegisterState registers a new state to the machine.  The old is replaced
if a state with the same name exists.  This is the call as the machine
itself sees it: the State, with the counter and owner written by lines
133-134, under its name.  What other machines that hold the same State see
of those writes is in `World.RegisterState`. -/
def StateMachine.RegisterState (sm : StateMachine T) (s : Option (State T)) : Ret T :=
  match s with
  | none => ⟨false, sm, [Log.error]⟩
  | some s =>
    let s1 : State T := { s with tickCnt := 0, machine := some sm.addr }
    ⟨true, { sm with states := mapSet sm.states s1.Name s1 }, [Log.debug]⟩

/-- SetStartingState sets a state, identified by the given name, as the
starting state. -/
def StateMachine.SetStartingState (sm : StateMachine T) (state : T) : Ret T :=
  match mapGet sm.states state with
  | none => ⟨false, sm, [Log.error]⟩
  | some _ => ⟨true, { sm with starting := state }, []⟩

/-- SetStoppingState sets a state, identified by the given name, as the
stopping state. -/
def StateMachine.SetStoppingState (sm : StateMachine T) (state : T) : Ret T :=
  match mapGet sm.states state with
  | none => ⟨false, sm, [Log.error]⟩
  | some _ => ⟨true, { sm with stopping := state }, []⟩

/-- The `for _, s := range ss` loop of `RegisterStates`: registers the
entries in order and stops with false at the first that fails. -/
def StateMachine.registerEach (sm : StateMachine T) : List (Option (State T)) → Ret T
  | [] => ⟨true, sm, []⟩
  | s :: rest =>
    let r := sm.RegisterState s
    if r.ok = false then ⟨false, r.sm, r.logs⟩
    else
      let r2 := StateMachine.registerEach r.sm rest
      ⟨r2.ok, r2.sm, r.logs ++ r2.logs⟩

/-- RegisterStates registers a slice of states, which contains at least two
elements, to the state machine.  The starting state and stopping state are
set to the first and last element of the slice. -/
def StateMachine.RegisterStates (sm : StateMachine T) (ss : List (Option (State T))) : Ret T :=
  if ss.length ≤ 1 then ⟨false, sm, [Log.error]⟩
  else
    let r := sm.registerEach ss
    if r.ok = false then ⟨false, r.sm, r.logs⟩
    else
      match ss.head?, ss.getLast? with
      | some (some first), some (some last) =>
        let r1 := r.sm.SetStartingState first.Name
        let r2 := r1.sm.SetStoppingState last.Name
        ⟨true, r2.sm, r.logs ++ r1.logs ++ r2.logs⟩
      | _, _ => ⟨true, r.sm, r.logs⟩ -- not reached: the loop saw every entry non-nil

/-- Startup starts running of the machine. -/
def StateMachine.Startup (sm : StateMachine T) : Ret T :=
  if sm.states.length = 0 then ⟨false, sm, [Log.error]⟩
  else
    let r := sm.MoveToState sm.starting
    ⟨true, { r.sm with loops := r.sm.loops + 1 }, r.logs ++ [Log.info]⟩

/-- Pause pauses the internal timer tick loop. -/
def StateMachine.Pause (sm : StateMachine T) : StateMachine T :=
  { sm with ticker := false }

/-- Resume resumes the internal timer tick loop. -/
def StateMachine.Resume (sm : StateMachine T) : StateMachine T :=
  { sm with ticker := true }

/-- SaveState saves the current state for restore. -/
def StateMachine.SaveState (sm : StateMachine T) : StateMachine T :=
  { sm with saved := sm.GetState }

/-- RestoreState moves to the latest saved state. -/
def StateMachine.RestoreState (sm : StateMachine T) : Done T :=
  let r := sm.MoveToState sm.saved
  ⟨r.sm, r.logs, none⟩

/-- What a back reference `p` points to in a program whose only machine is
`sm`: this machine, or nothing. -/
def StateMachine.deref (sm : StateMachine T) (p : Option Nat) : Option (StateMachine T) :=
  match p with
  | none => none
  | some a => if a = sm.addr then some sm else none

/-- The machine's trigger, lines 275-281, in a program whose only machine
is `sm`: looks up the current state and runs its trigger.  An absent key
yields a nil `*State`, whose trigger panics on its first line.  The close of
line 39 is the close of the owner's `stopped`, and the only owner there is
here is `sm`.  For a program of several machines see `World.trigger`. -/
def StateMachine.trigger (sm : StateMachine T) : Triggered T :=
  match mapGet sm.states sm.GetState with
  | none => ⟨sm, [], [], some Fault.nilDereference⟩
  | some s =>
    let f := s.trigger (sm.deref s.machine)
    let sm1 : StateMachine T := { sm with states := mapSet sm.states sm.GetState f.state }
    if f.closes = true then
      if sm.stopped = true then ⟨sm1, f.invoked, f.logs, some Fault.closeOfClosedChannel⟩
      else ⟨{ sm1 with stopped := true }, f.invoked, f.logs ++ [Log.debug], none⟩
    else ⟨sm1, f.invoked, f.logs, f.fault⟩

/-- Shutdown up to its receive from `stopped`: the first log line and the
move to the stopping state.  The caller then waits for `stopped`. -/
def StateMachine.ShutdownEnter (sm : StateMachine T) : Done T :=
  let r := sm.MoveToState sm.stopping
  ⟨r.sm, Log.info :: r.logs, none⟩

/-- Shutdown after its receive from `stopped`: closes `quit`, sleeps, stops
the ticker.  It is `none` while `stopped` is open (the caller is still
blocked); closing `quit` a second time panics. -/
def StateMachine.ShutdownLeave (sm : StateMachine T) : Option (Done T) :=
  if sm.stopped = true then
    if sm.quit = true then some ⟨sm, [], some Fault.closeOfClosedChannel⟩
    else some ⟨{ sm with quit := true, ticker := false }, [Log.info], none⟩
  else none

/-- One thing that happens to a machine: a method call by some caller, or a
step of a goroutine running `loop` (`tick`: the loop calls `trigger`, first
at once and then on every timer tick; `loopQuit`: the loop takes the `quit`
case and returns).  `Shutdown` is its two halves. -/
inductive Call (T : Type) where
  | EnableStateTrace (enable : Bool)
  | MoveToState (s : T)
  | RegisterState (s : Option (State T))
  | RegisterStates (ss : List (Option (State T)))
  | SetStartingState (state : T)
  | SetStoppingState (state : T)
  | Startup
  | ShutdownEnter
  | ShutdownLeave
  | Pause
  | Resume
  | SaveState
  | RestoreState
  | tick
  | loopQuit

/-- What one `Call` did: the machine afterwards, the value returned (if the
method returns one), the action invocations, the log lines and a panic if one
happened. -/
structure Step (T : Type) where
  sm : StateMachine T
  ret : Option Bool
  invoked : List (Nat × Nat)
  logs : List Log
  fault : Option Fault
deriving DecidableEq

/-- Effect of one `Call`.  A `tick` or `loopQuit` needs a running loop
goroutine, `loopQuit` also a closed `quit`, and `ShutdownLeave` a closed
`stopped`: otherwise nothing happens. -/
def StateMachine.call (sm : StateMachine T) : Call T → Step T
  | Call.EnableStateTrace enable => ⟨sm.EnableStateTrace enable, none, [], [], none⟩
  | Call.MoveToState s =>
    let r := sm.MoveToState s
    ⟨r.sm, some r.ok, [], r.logs, none⟩
  | Call.RegisterState s =>
    let r := sm.RegisterState s
    ⟨r.sm, some r.ok, [], r.logs, none⟩
  | Call.RegisterStates ss =>
    let r := sm.RegisterStates ss
    ⟨r.sm, some r.ok, [], r.logs, none⟩
  | Call.SetStartingState state =>
    let r := sm.SetStartingState state
    ⟨r.sm, some r.ok, [], r.logs, none⟩
  | Call.SetStoppingState state =>
    let r := sm.SetStoppingState state
    ⟨r.sm, some r.ok, [], r.logs, none⟩
  | Call.Startup =>
    let r := sm.Startup
    ⟨r.sm, some r.ok, [], r.logs, none⟩
  | Call.ShutdownEnter =>
    let r := sm.ShutdownEnter
    ⟨r.sm, none, [], r.logs, r.fault⟩
  | Call.ShutdownLeave =>
    match sm.ShutdownLeave with
    | none => ⟨sm, none, [], [], none⟩
    | some r => ⟨r.sm, none, [], r.logs, r.fault⟩
  | Call.Pause => ⟨sm.Pause, none, [], [], none⟩
  | Call.Resume => ⟨sm.Resume, none, [], [], none⟩
  | Call.SaveState => ⟨sm.SaveState, none, [], [], none⟩
  | Call.RestoreState =>
    let r := sm.RestoreState
    ⟨r.sm, none, [], r.logs, r.fault⟩
  | Call.tick =>
    if sm.loops = 0 then ⟨sm, none, [], [], none⟩
    else
      let r := sm.trigger
      ⟨r.sm, none, r.invoked, r.logs, r.fault⟩
  | Call.loopQuit =>
    if sm.loops = 0 ∨ sm.quit = false then ⟨sm, none, [], [], none⟩
    else ⟨{ sm with loops := sm.loops - 1 }, none, [], [Log.info], none⟩

/-- The machine with the entry `s` of its current key one tick on (line
24). -/
def StateMachine.ticked (m : StateMachine T) (s : State T) : StateMachine T :=
  { m with states := mapSet m.states m.GetState
             { s with tickCnt := (s.tickCnt + 1) % uintSize } }

/-- The calls that leave the machine away from state `a`: loop steps, and
moves to other keys. -/
def Call.awayFrom (a : T) : Call T → Bool
  | Call.tick => true
  | Call.loopQuit => true
  | Call.MoveToState k => decide (k ≠ a)
  | _ => false

/-- The machines of one program.  Bindings that hold the same address `ptr`,
in whatever machine, are one Go object: what a method writes through a
`*State` shows in all of them. -/
structure World (T : Type) where
  machines : List (StateMachine T)
deriving DecidableEq

/-- The machine at address `a`, if there is one. -/
def World.machineAt (w : World T) (a : Nat) : Option (StateMachine T) :=
  w.machines.find? (fun m => decide (m.addr = a))

/-- What a back reference points to. -/
def World.deref (w : World T) (p : Option Nat) : Option (StateMachine T) :=
  match p with
  | none => none
  | some a => w.machineAt a

/-- The world with `m1` in place of the machine at `a` and `g` applied to
every other machine. -/
def World.update (w : World T) (a : Nat) (m1 : StateMachine T)
    (g : StateMachine T → StateMachine T) : World T :=
  ⟨w.machines.map (fun m => if m.addr = a then m1 else g m)⟩

/-- The world with `stopped` of the machine at `b` closed. -/
def World.close (w : World T) (b : Nat) : World T :=
  ⟨w.machines.map (fun m => if m.addr = b then { m with stopped := true } else m)⟩

/-- A binding after the machine at `a` has run lines 133-134 on the State
at address `p`: if the binding is that State, its counter is 0 and its owner
the machine at `a`. -/
def State.seesRegister (s : State T) (p a : Nat) : State T :=
  if s.ptr = p then { s with tickCnt := 0, machine := some a } else s

/-- A machine whose bindings have seen `State.seesRegister`. -/
def StateMachine.seesRegister (m : StateMachine T) (p a : Nat) : StateMachine T :=
  { m with states := m.states.map (fun e => (e.1, e.2.seesRegister p a)) }

/-- A binding after line 24 has left the counter of the State at address
`p` at `n`. -/
def State.seesTick (s : State T) (p n : Nat) : State T :=
  if s.ptr = p then { s with tickCnt := n } else s

/-- A machine whose bindings have seen `State.seesTick`. -/
def StateMachine.seesTick (m : StateMachine T) (p n : Nat) : StateMachine T :=
  { m with states := m.states.map (fun e => (e.1, e.2.seesTick p n)) }

/-- The entries of a batch in front of its first nil. -/
def somesBefore : List (Option (State T)) → List (State T)
  | [] => []
  | none :: _ => []
  | some st :: rest => st :: somesBefore rest

/-- The entries of a batch that the loop of `RegisterStates` registers: none
for a batch of fewer than two, else those in front of the first nil. -/
def registeredOf (ss : List (Option (State T))) : List (State T) :=
  if ss.length ≤ 1 then [] else somesBefore ss

/-- What a call on one machine of a world did: the world afterwards, the
value returned, the action invocations, the log lines and a panic if one
happened. -/
structure WStep (T : Type) where
  w : World T
  ret : Option Bool
  invoked : List (Nat × Nat)
  logs : List Log
  fault : Option Fault
deriving DecidableEq

/-- RegisterState called on the machine at `a`.  The machine stores the
State as `StateMachine.RegisterState` says; the writes of lines 133-134 go
through the pointer, so every other machine that holds the same State sees
its counter at 0 and its owner changed to the machine at `a`. -/
def World.RegisterState (w : World T) (a : Nat) (s : Option (State T)) : WStep T :=
  match w.machineAt a with
  | none => ⟨w, none, [], [], none⟩
  | some m =>
    let r := m.RegisterState s
    match s with
    | none => ⟨w.update a r.sm (fun o => o), some r.ok, [], r.logs, none⟩
    | some st =>
      ⟨w.update a r.sm (fun o => o.seesRegister st.ptr a), some r.ok, [], r.logs, none⟩

/-- RegisterStates called on the machine at `a`: as `World.RegisterState`
for every entry its loop registers. -/
def World.RegisterStates (w : World T) (a : Nat) (ss : List (Option (State T))) : WStep T :=
  match w.machineAt a with
  | none => ⟨w, none, [], [], none⟩
  | some m =>
    let r := m.RegisterStates ss
    ⟨w.update a r.sm
        (fun o => (registeredOf ss).foldl (fun o1 st => o1.seesRegister st.ptr a) o),
      some r.ok, [], r.logs, none⟩

/-- The trigger of the machine at `a`, lines 275-281 with 23-45: the
current state's trigger runs against the machine its back reference points
to, whichever machine of the world that is; the new counter shows in every
binding of that State; the close of line 39 closes the owner's `stopped`
and panics if that is closed already. -/
def World.trigger (w : World T) (a : Nat) : WStep T :=
  match w.machineAt a with
  | none => ⟨w, none, [], [], none⟩
  | some m =>
    match mapGet m.states m.GetState with
    | none => ⟨w, none, [], [], some Fault.nilDereference⟩
    | some s =>
      let f := s.trigger (w.deref s.machine)
      let m1 : StateMachine T := { m with states := mapSet m.states m.GetState f.state }
      let w1 := w.update a m1 (fun o => o.seesTick s.ptr f.state.tickCnt)
      if f.closes = true then
        match w.deref s.machine with
        | none => ⟨w1, none, f.invoked, f.logs, f.fault⟩ -- not reached: no owner, no close
        | some o =>
          if o.stopped = true then ⟨w1, none, f.invoked, f.logs, some Fault.closeOfClosedChannel⟩
          else ⟨w1.close o.addr, none, f.invoked, f.logs ++ [Log.debug], none⟩
      else ⟨w1, none, f.invoked, f.logs, f.fault⟩

/-- Effect of one `Call` on the machine at `a`.  Registration and the
trigger reach other machines through shared States; every other call
touches the machine at `a` only.  Without a machine at `a` nothing
happens. -/
def World.call (w : World T) (a : Nat) (c : Call T) : WStep T :=
  match c with
  | Call.RegisterState s => w.RegisterState a s
  | Call.RegisterStates ss => w.RegisterStates a ss
  | Call.tick =>
    match w.machineAt a with
    | none => ⟨w, none, [], [], none⟩
    | some m => if m.loops = 0 then ⟨w, none, [], [], none⟩ else w.trigger a
  | c1 =>
    match w.machineAt a with
    | none => ⟨w, none, [], [], none⟩
    | some m =>
      let st := m.call c1
      ⟨w.update a st.sm (fun o => o), st.ret, st.invoked, st.logs, st.fault⟩

/-- Whether a machine other than the one at `a` holds the State at `p`. -/
def World.holds (w : World T) (a p : Nat) : Bool :=
  w.machines.any (fun m => decide (m.addr ≠ a) && m.states.any (fun e => decide (e.2.ptr = p)))

/-- Whether the call on the machine at `a` registers no State that another
machine holds. -/
def World.keepsApart (w : World T) (a : Nat) : Call T → Bool
  | Call.RegisterState (some st) => !(w.holds a st.ptr)
  | Call.RegisterStates ss =>
    ss.all (fun s => match s with
      | some st => !(w.holds a st.ptr)
      | none => true)
  | _ => true

/-- Worlds a program can produce: machines made by `NewStateMachine` at
unused addresses, and calls on them.  With `apart` set, only calls that
register no State another machine holds are taken. -/
inductive World.Reachable [Inhabited T] (apart : Bool) : World T → Prop where
  | empty : World.Reachable apart ⟨[]⟩
  | new (w : World T) (addr : Nat) (name : String) (precision : Int) (m : StateMachine T) :
      World.Reachable apart w → w.machineAt addr = none →
      NewStateMachine addr name precision = some m →
      World.Reachable apart ⟨w.machines ++ [m]⟩
  | call (w : World T) (a : Nat) (c : Call T) :
      World.Reachable apart w → (apart = true → w.keepsApart a c = true) →
      World.Reachable apart (w.call a c).w

/-- A run so far: the machine, the values returned by the calls (oldest
first), all action invocations (oldest first), and the panic that ended the
run, if any. -/
structure Run (T : Type) where
  sm : StateMachine T
  rets : List Bool
  invoked : List (Nat × Nat)
  fault : Option Fault
deriving DecidableEq

/-- A run that starts at machine `sm`. -/
def Run.start (sm : StateMachine T) : Run T := ⟨sm, [], [], none⟩

/-- Extends a run by one call.  After a panic the program is gone and
nothing more happens. -/
def Run.step (r : Run T) (c : Call T) : Run T :=
  match r.fault with
  | some _ => r
  | none =>
    let st := r.sm.call c
    ⟨st.sm, r.rets ++ st.ret.toList, r.invoked ++ st.invoked, st.fault⟩

/-- Runs the calls in order. -/
def Run.steps (r : Run T) (cs : List (Call T)) : Run T := cs.foldl Run.step r

/-- Machines that `NewStateMachine` and calls can produce in a program with
one machine.  For programs with several machines see `World.Reachable`. -/
inductive Reachable [Inhabited T] : StateMachine T → Prop where
  | new (addr : Nat) (name : String) (precision : Int) (sm : StateMachine T) :
      NewStateMachine addr name precision = some sm → Reachable sm
  | call (sm : StateMachine T) (c : Call T) : Reachable sm → Reachable (sm.call c).sm

/-- Every binding of the state map is stored under its own name. -/
def StateMachine.WellKeyed (sm : StateMachine T) : Prop :=
  ∀ k s, mapGet sm.states k = some s → s.Name = k

/-- Whether `k` is a key of the state map (`_, ok := sm.states[k]`). -/
def StateMachine.hasState (sm : StateMachine T) (k : T) : Bool :=
  (mapGet sm.states k).isSome

/-- The entry of `ss` stored under key `k` once all of `ss` is registered in
order: the last one named `k`, `none` if there is none. -/
def lastNamed : List (State T) → T → Option (State T)
  | [], _ => none
  | s :: rest, k =>
    match lastNamed rest k with
    | some t => some t
    | none => if s.Name = k then some s else none

/-- The state `s` after `n` calls of its trigger, call number `i` (from 0)
made while the owner is as `owners i` says. -/
def State.afterCalls (s : State T) (owners : Nat → StateMachine T) : Nat → State T
  | 0 => s
  | n + 1 => ((State.afterCalls s owners n).trigger (some (owners n))).state

/-- The `k`-th call (counted from 1) of the trigger of `s`. -/
def State.kthCall (s : State T) (owners : Nat → StateMachine T) (k : Nat) : Fired T :=
  (s.afterCalls owners (k - 1)).trigger (some (owners (k - 1)))

/-- MoveToState called with each key of `ks` in turn, the results dropped. -/
def StateMachine.moves (sm : StateMachine T) (ks : List T) : StateMachine T :=
  ks.foldl (fun m k => (m.MoveToState k).sm) sm

/-- The calls that happen while a started machine runs: steps of the loop,
`MoveToState`, and the two halves of `Shutdown`. -/
def Call.running : Call T → Bool
  | Call.tick => true
  | Call.loopQuit => true
  | Call.MoveToState _ => true
  | Call.ShutdownEnter => true
  | Call.ShutdownLeave => true
  | _ => false

/-- In this run the action of the state stored under the stopping key has
been invoked (with that state's `Args`). -/
def Run.stoppingActionRan (r : Run T) : Prop :=
  ∃ s a, mapGet r.sm.states r.sm.stopping = some s ∧ s.Name = r.sm.stopping ∧
    s.Action = some a ∧ (a, s.Args) ∈ r.invoked

/-- What a step from `sm` to `sm1` that invoked `invoked` does while the
machine runs: the stopping key and every state's action and arguments stay;
`stopped` is never reopened, and it is closed only together with an
invocation of the action of the state under the stopping key; `quit` is
closed and the ticker stopped only when `stopped` was closed before. -/
def StateMachine.RunsTo (sm sm1 : StateMachine T) (invoked : List (Nat × Nat)) : Prop :=
  sm1.stopping = sm.stopping ∧
  (∀ k, (mapGet sm1.states k).map (fun s => (s.Action, s.Args)) =
    (mapGet sm.states k).map (fun s => (s.Action, s.Args))) ∧
  (sm.stopped = true → sm1.stopped = true) ∧
  (sm.stopped = false → sm1.stopped = true →
    ∃ s a, mapGet sm.states sm.stopping = some s ∧ s.Action = some a ∧ (a, s.Args) ∈ invoked) ∧
  (sm1.quit = true → sm.quit = true ∨ sm.stopped = true) ∧
  (sm1.ticker = false → sm.ticker = false ∨ sm.stopped = true)

/-- Every binding of the state map has this machine as its owner. -/
def StateMachine.Bound (sm : StateMachine T) : Prop :=
  ∀ k s, mapGet sm.states k = some s → s.machine = some sm.addr

end Defs

/-! ## Concrete machines used to evaluate the definitions -/

/-- A machine just made by `NewStateMachine`, keyed by strings. -/
def freshMachine : StateMachine String :=
  { addr := 1, name := "fsm", states := [], starting := "", stopping := "", saved := "",
    current := "", ticker := true, precision := 10, quit := false, stopped := false,
    trace := false, loops := 0 }

/-- State `Idle` as a caller writes it: fires action 1 on every tick. -/
def idleState : State String :=
  { Name := "Idle", Ticks := 0, Action := some 1, Args := 7, tickCnt := 0, machine := none,
    ptr := 101 }

/-- State `Stop` as a caller writes it: fires action 2 on every tick. -/
def stopState : State String :=
  { Name := "Stop", Ticks := 0, Action := some 2, Args := 8, tickCnt := 0, machine := none,
    ptr := 102 }

/-- The machine after `RegisterStates([Idle, Stop])` on `freshMachine`. -/
def twoStateMachine : StateMachine String :=
  (freshMachine.RegisterStates [some idleState, some stopState]).sm

/-- The machine `twoStateMachine` after `Startup`: current state `Idle`,
one loop goroutine. -/
def startedMachine : StateMachine String := twoStateMachine.Startup.sm

/-- A state that fires action 3 on every third tick. -/
def everyThird : State String :=
  { Name := "Work", Ticks := 3, Action := some 3, Args := 9, tickCnt := 0, machine := none,
    ptr := 103 }

/-- Calls on a started machine: the loop triggers `Idle` at once, a caller
moves to `Stop`, and the loop then triggers `Stop` on two ticks. -/
def stopTwice : List (Call String) :=
  [Call.tick, Call.MoveToState "Stop", Call.tick, Call.tick]

/-- The machine after `RegisterState(Idle)` alone on `freshMachine`: no
starting state was ever set. -/
def idleOnlyMachine : StateMachine String :=
  (freshMachine.RegisterState (some idleState)).sm

/-- State `Quiet` as a caller writes it: no action bound. -/
def quietState : State String :=
  { Name := "Quiet", Ticks := 0, Action := none, Args := 0, tickCnt := 0, machine := none,
    ptr := 104 }

/-- The machine after `RegisterStates([Quiet, Stop])` and `Startup` on
`freshMachine`, once the loop has triggered `Quiet` `n` times without
wrapping its counter. -/
def countingMachine (n : Nat) : StateMachine String :=
  { addr := 1, name := "fsm",
    states := [("Quiet", { quietState with tickCnt := n, machine := some 1 }),
               ("Stop", { stopState with machine := some 1 })],
    starting := "Quiet", stopping := "Stop", saved := "", current := "Quiet",
    ticker := true, precision := 10, quit := false, stopped := false, trace := false,
    loops := 1 }

/-- The machine after `RegisterStates([Idle, Quiet])` and `Startup` on
`freshMachine`: the stopping state `Quiet` has no action bound. -/
def quietStopMachine : StateMachine String :=
  (freshMachine.RegisterStates [some idleState, some quietState]).sm.Startup.sm

/-- The started two-state machine after `MoveToState("Stop")`. -/
def stopCurrentMachine : StateMachine String := (startedMachine.MoveToState "Stop").sm

/-- Calls on a started machine: two triggers, a move, two more triggers. -/
def tickMoveTick : List (Call String) :=
  [Call.tick, Call.tick, Call.MoveToState "Quiet", Call.tick, Call.tick]

/-- A second machine just made by `NewStateMachine`, at another address. -/
def secondMachine : StateMachine String :=
  { addr := 2, name := "other", states := [], starting := "", stopping := "", saved := "",
    current := "", ticker := true, precision := 10, quit := false, stopped := false,
    trace := false, loops := 0 }

/-- A program with two new machines. -/
def twoMachines : World String := ⟨[freshMachine, secondMachine]⟩

/-- The two machines after `RegisterState` of one and the same `*State`
(`Idle`), first on the machine at 1, then on the machine at 2. -/
def sharedWorld : World String :=
  ((twoMachines.call 1 (Call.RegisterState (some idleState))).w.call 2
    (Call.RegisterState (some idleState))).w

/-- The two machines after `RegisterState` of `Idle` on the machine at 1
and of `Stop` on the machine at 2. -/
def apartWorld : World String :=
  ((twoMachines.call 1 (Call.RegisterState (some idleState))).w.call 2
    (Call.RegisterState (some stopState))).w

/-- The two machines after `RegisterStates([Idle, Stop])` on the machine at
1, `RegisterState` of the same `Idle` on the machine at 2, and `Startup` of
the machine at 1: its current state `Idle` is owned by the machine at 2. -/
def sharedStarted : World String :=
  (((twoMachines.call 1 (Call.RegisterStates [some idleState, some stopState])).w.call 2
    (Call.RegisterState (some idleState))).w.call 1 Call.Startup).w

/-- A started machine with a single state: `RegisterState(Idle)`,
`SetStartingState(Idle)`, `Startup` on `freshMachine`. -/
def loneMachine : StateMachine String :=
  ((freshMachine.RegisterState (some idleState)).sm.SetStartingState "Idle").sm.Startup.sm

/-- The machine `quietStopMachine` after the loop has triggered `Idle` once:
current state `Idle`, its counter at 1. -/
def tickedMachine : StateMachine String := (quietStopMachine.call Call.tick).sm

/-- Calls while the machine is away from `Idle`: a trigger, a refused move,
another trigger. -/
def awayCalls : List (Call String) :=
  [Call.tick, Call.MoveToState "Nope", Call.tick]

/-! ## Theorems -/

set_option linter.unusedSectionVars false

section Lemmas

variable {T : Type} [DecidableEq T]

theorem mapGet_mapSet_same (m : List (T × State T)) (k : T) (v : State T) :
    mapGet (mapSet m k v) k = some v := by
  induction m with
  | nil => simp [mapSet, mapGet]
  | cons p m ih =>
    obtain ⟨k1, v1⟩ := p
    by_cases h : k1 = k
    · simp [mapSet, mapGet, h]
    · simp [mapSet, mapGet, h, ih]

theorem mapGet_mapSet_other (m : List (T × State T)) (k j : T) (v : State T) (h : j ≠ k) :
    mapGet (mapSet m k v) j = mapGet m j := by
  induction m with
  | nil =>
    have h2 : ¬ k = j := fun e => h e.symm
    simp [mapSet, mapGet, h2]
  | cons p m ih =>
    obtain ⟨k1, v1⟩ := p
    by_cases h1 : k1 = k
    · have h2 : ¬ k = j := fun e => h e.symm
      simp [mapSet, mapGet, h1, h2]
    · by_cases h3 : k1 = j
      · subst h3
        simp [mapSet, mapGet, h1]
      · simp [mapSet, mapGet, h1, h3, ih]

end Lemmas

section Frame

variable {T : Type} [DecidableEq T]

theorem MoveToState_states (sm : StateMachine T) (k : T) :
    (sm.MoveToState k).sm.states = sm.states := by
  unfold StateMachine.MoveToState
  split
  · rfl
  · split <;> rfl

theorem SetStartingState_states (sm : StateMachine T) (k : T) :
    (sm.SetStartingState k).sm.states = sm.states := by
  unfold StateMachine.SetStartingState
  split <;> rfl

theorem SetStoppingState_states (sm : StateMachine T) (k : T) :
    (sm.SetStoppingState k).sm.states = sm.states := by
  unfold StateMachine.SetStoppingState
  split <;> rfl

theorem wellKeyed_of_states (sm sm1 : StateMachine T) (h : sm1.states = sm.states)
    (hw : sm.WellKeyed) : sm1.WellKeyed := by
  intro k s hs
  rw [h] at hs
  exact hw k s hs

theorem wellKeyed_mapSet (sm : StateMachine T) (m : List (T × State T)) (v : State T)
    (hw : sm.WellKeyed) (hm : m = mapSet sm.states v.Name v) :
    ∀ k s, mapGet m k = some s → s.Name = k := by
  intro k s hs
  subst hm
  by_cases hk : k = v.Name
  · subst hk
    rw [mapGet_mapSet_same] at hs
    cases hs
    rfl
  · rw [mapGet_mapSet_other _ _ _ _ hk] at hs
    exact hw k s hs

theorem RegisterState_wellKeyed (sm : StateMachine T) (s : Option (State T))
    (hw : sm.WellKeyed) : (sm.RegisterState s).sm.WellKeyed := by
  cases s with
  | none => exact hw
  | some st =>
    exact wellKeyed_mapSet sm _ { st with tickCnt := 0, machine := some sm.addr } hw rfl

theorem registerEach_wellKeyed (ss : List (Option (State T))) :
    ∀ sm : StateMachine T, sm.WellKeyed → (sm.registerEach ss).sm.WellKeyed := by
  induction ss with
  | nil => intro sm hw; exact hw
  | cons s rest ih =>
    intro sm hw
    have h1 := RegisterState_wellKeyed sm s hw
    unfold StateMachine.registerEach
    by_cases hok : (sm.RegisterState s).ok = false
    · simp only [hok, if_true]
      exact h1
    · simp only [hok, if_false]
      exact ih _ h1

theorem RegisterStates_states (sm : StateMachine T) (ss : List (Option (State T))) :
    (sm.RegisterStates ss).sm.states =
      if ss.length ≤ 1 then sm.states else (sm.registerEach ss).sm.states := by
  unfold StateMachine.RegisterStates
  by_cases hlen : ss.length ≤ 1
  · simp only [hlen, if_true]
  · simp only [hlen, if_false]
    cases hok : (sm.registerEach ss).ok with
    | false => simp only [if_true]
    | true =>
      simp only [Bool.true_eq_false, if_false]
      split
      · simp only [SetStoppingState_states, SetStartingState_states]
      · rfl

theorem RegisterStates_wellKeyed (sm : StateMachine T) (ss : List (Option (State T)))
    (hw : sm.WellKeyed) : (sm.RegisterStates ss).sm.WellKeyed := by
  by_cases hlen : ss.length ≤ 1
  · exact wellKeyed_of_states _ _ (by rw [RegisterStates_states, if_pos hlen]) hw
  · exact wellKeyed_of_states _ _ (by rw [RegisterStates_states, if_neg hlen])
      (registerEach_wellKeyed ss sm hw)

theorem State.trigger_state (s : State T) (owner : Option (StateMachine T)) :
    (s.trigger owner).state = { s with tickCnt := (s.tickCnt + 1) % uintSize } := by
  unfold State.trigger
  simp only
  split
  · split
    · rfl
    · split
      · split <;> rfl
      · split <;> rfl
  · rfl

theorem State.trigger_nil_owner (s : State T) : (s.trigger none).closes = false := by
  unfold State.trigger
  simp only
  split
  · cases s.Action with
    | none => rfl
    | some a => simp only; split <;> rfl
  · rfl

theorem deref_cases (sm : StateMachine T) (p : Option Nat) :
    sm.deref p = none ∨ (p = some sm.addr ∧ sm.deref p = some sm) := by
  cases p with
  | none => left; rfl
  | some a =>
    by_cases ha : a = sm.addr
    · right; subst ha; exact ⟨rfl, by simp only [StateMachine.deref, if_true]⟩
    · left; simp only [StateMachine.deref, ha, if_false]

theorem trigger_states (sm : StateMachine T) :
    sm.trigger.sm.states = sm.states ∨
      ∃ s o, mapGet sm.states sm.GetState = some s ∧
        sm.trigger.sm.states = mapSet sm.states sm.GetState (s.trigger o).state := by
  cases hs : mapGet sm.states sm.GetState with
  | none => left; simp only [StateMachine.trigger, hs]
  | some s =>
    right
    refine ⟨s, sm.deref s.machine, rfl, ?_⟩
    simp only [StateMachine.trigger, hs]
    cases hc : (s.trigger (sm.deref s.machine)).closes with
    | true =>
      cases hst : sm.stopped with
      | true => simp only [if_true]
      | false => simp only [Bool.false_eq_true, if_true, if_false]
    | false => simp only [Bool.false_eq_true, if_false]

theorem trigger_wellKeyed (sm : StateMachine T) (hw : sm.WellKeyed) :
    sm.trigger.sm.WellKeyed := by
  rcases trigger_states sm with h | ⟨s, o, hs, h⟩
  · exact wellKeyed_of_states _ _ h hw
  · have hn : s.Name = sm.GetState := hw _ _ hs
    intro k t ht
    rw [h] at ht
    refine wellKeyed_mapSet sm _ (s.trigger o).state hw ?_ k t ht
    rw [State.trigger_state]
    simp only [hn]

theorem ShutdownLeave_states (sm : StateMachine T) (r : Done T)
    (h : sm.ShutdownLeave = some r) : r.sm.states = sm.states := by
  unfold StateMachine.ShutdownLeave at h
  split at h
  · split at h
    · cases h; rfl
    · cases h; rfl
  · cases h

theorem call_wellKeyed (sm : StateMachine T) (c : Call T) (hw : sm.WellKeyed) :
    (sm.call c).sm.WellKeyed := by
  cases c with
  | EnableStateTrace enable => exact hw
  | MoveToState s => exact wellKeyed_of_states _ _ (MoveToState_states sm s) hw
  | RegisterState s => exact RegisterState_wellKeyed sm s hw
  | RegisterStates ss => exact RegisterStates_wellKeyed sm ss hw
  | SetStartingState k => exact wellKeyed_of_states _ _ (SetStartingState_states sm k) hw
  | SetStoppingState k => exact wellKeyed_of_states _ _ (SetStoppingState_states sm k) hw
  | Startup =>
    simp only [StateMachine.call, StateMachine.Startup]
    split
    · exact hw
    · exact wellKeyed_of_states _ _ (MoveToState_states sm sm.starting) hw
  | ShutdownEnter => exact wellKeyed_of_states _ _ (MoveToState_states sm sm.stopping) hw
  | ShutdownLeave =>
    cases h : sm.ShutdownLeave with
    | none => simp only [StateMachine.call, h]; exact hw
    | some r =>
      simp only [StateMachine.call, h]
      exact wellKeyed_of_states _ _ (ShutdownLeave_states sm r h) hw
  | Pause => exact hw
  | Resume => exact hw
  | SaveState => exact hw
  | RestoreState => exact wellKeyed_of_states _ _ (MoveToState_states sm sm.saved) hw
  | tick =>
    simp only [StateMachine.call]
    split
    · exact hw
    · exact trigger_wellKeyed sm hw
  | loopQuit =>
    simp only [StateMachine.call]
    split <;> exact hw

theorem Reachable.wellKeyed [Inhabited T] (sm : StateMachine T) (h : Reachable sm) :
    sm.WellKeyed := by
  induction h with
  | new addr name precision sm hnew =>
    intro k s hs
    unfold NewStateMachine at hnew
    split at hnew
    · cases hnew
    · cases hnew
      simp [mapGet] at hs
  | call sm c _ ih => exact call_wellKeyed sm c ih

end Frame

/-! ## MoveToState -/

section Move

variable {T : Type} [DecidableEq T]

/-- C1 (as stated, refuted): on a machine just made by `NewStateMachine` the
zero value of the key type is not a key of the state map, and yet
`MoveToState` of it returns true: the current state is that zero value, and
the comparison with the current state comes before the lookup. -/
theorem MoveToState_zero_key_counterexample :
    NewStateMachine 1 "fsm" 10 = some freshMachine ∧
      freshMachine.hasState "" = false ∧
      (freshMachine.MoveToState "").ok = true := by
  decide

/-- C1 (amended): for a key `k` that is not a key of the state map,
`MoveToState k` leaves the machine (hence `GetState`) unchanged, and it
returns false exactly when `k` differs from the current state. -/
theorem MoveToState_unregistered (sm : StateMachine T) (k : T)
    (hk : sm.hasState k = false) :
    ((sm.MoveToState k).ok = false ↔ k ≠ sm.GetState) ∧
      (sm.MoveToState k).sm.GetState = sm.GetState ∧
      (sm.MoveToState k).sm = sm := by
  have hnone : mapGet sm.states k = none := by
    simpa [StateMachine.hasState] using hk
  unfold StateMachine.MoveToState
  by_cases hcur : sm.GetState = k
  · simp [hcur]
  · have hcur2 : ¬ k = sm.GetState := fun e => hcur e.symm
    simp [hcur, hcur2, hnone]

theorem MoveToState_unregistered_witness :
    twoStateMachine.hasState "Nope" = false ∧
      (((twoStateMachine.MoveToState "Nope").ok = false ↔ "Nope" ≠ twoStateMachine.GetState) ∧
        (twoStateMachine.MoveToState "Nope").sm.GetState = twoStateMachine.GetState ∧
        (twoStateMachine.MoveToState "Nope").sm = twoStateMachine) :=
  ⟨by decide, MoveToState_unregistered twoStateMachine "Nope" (by decide)⟩

/-- C2: on a machine produced by `NewStateMachine` and calls of its methods,
for a registered key `k` other than the current state, `MoveToState k`
returns true, `GetState` then returns `k`, and the machine is otherwise the
same (state map with all tick counters, starting, stopping and saved keys).
Nothing but registration of `k` is asked of the current state. -/
theorem MoveToState_registered [Inhabited T] (sm : StateMachine T) (k : T)
    (hr : Reachable sm) (hk : sm.hasState k = true) (hne : k ≠ sm.GetState) :
    (sm.MoveToState k).ok = true ∧
      (sm.MoveToState k).sm.GetState = k ∧
      (sm.MoveToState k).sm = { sm with current := k } := by
  have hw := Reachable.wellKeyed sm hr
  have hcur : ¬ sm.current = k := fun e => hne e.symm
  cases hs : mapGet sm.states k with
  | none => simp [StateMachine.hasState, hs] at hk
  | some st =>
    have hn : st.Name = k := hw k st hs
    simp [StateMachine.MoveToState, hcur, hs, hn, StateMachine.GetState]

theorem MoveToState_registered_witness :
    Reachable twoStateMachine ∧ twoStateMachine.hasState "Stop" = true ∧
      "Stop" ≠ twoStateMachine.GetState ∧
      ((twoStateMachine.MoveToState "Stop").ok = true ∧
        (twoStateMachine.MoveToState "Stop").sm.GetState = "Stop" ∧
        (twoStateMachine.MoveToState "Stop").sm = { twoStateMachine with current := "Stop" }) :=
  have hr : Reachable twoStateMachine :=
    Reachable.call freshMachine (Call.RegisterStates [some idleState, some stopState])
      (Reachable.new 1 "fsm" 10 freshMachine (by decide))
  ⟨hr, by decide, by decide, MoveToState_registered twoStateMachine "Stop" hr (by decide) (by decide)⟩

/-- C3: `MoveToState` is idempotent.  A move to the current state returns
true, leaves the whole machine as it is and writes a trace line only; and
for every key `k` a second `MoveToState k` right after the first returns
what the first returned and leaves the machine as the first left it. -/
theorem MoveToState_idempotent (sm : StateMachine T) (k : T) :
    (sm.MoveToState sm.GetState).ok = true ∧
      (sm.MoveToState sm.GetState).sm = sm ∧
      (sm.MoveToState sm.GetState).logs = [Log.trace] ∧
      ((sm.MoveToState k).sm.MoveToState k).sm = (sm.MoveToState k).sm ∧
      ((sm.MoveToState k).sm.MoveToState k).ok = (sm.MoveToState k).ok := by
  refine ⟨by simp [StateMachine.MoveToState], by simp [StateMachine.MoveToState],
    by simp [StateMachine.MoveToState], ?_⟩
  by_cases hcur : sm.GetState = k
  · simp [StateMachine.MoveToState, hcur]
  · cases hs : mapGet sm.states k with
    | none => simp [StateMachine.MoveToState, hcur, hs]
    | some st =>
      have h1 : sm.MoveToState k =
          ⟨true, { sm with current := st.Name }, if sm.trace = true then [Log.debug] else []⟩ := by
        simp [StateMachine.MoveToState, hcur, hs]
      rw [h1]
      by_cases hn : st.Name = k
      · simp [StateMachine.MoveToState, StateMachine.GetState, hn]
      · simp [StateMachine.MoveToState, StateMachine.GetState, hn, hs]

end Move

/-! ## Registration and configuration -/

section Register

variable {T : Type} [DecidableEq T]

/-- C7: on a list of length 0 or 1 `RegisterStates` returns false and leaves
the machine as it is: state map, starting and stopping key included. -/
theorem RegisterStates_short (sm : StateMachine T) (ss : List (Option (State T)))
    (hlen : ss.length ≤ 1) :
    (sm.RegisterStates ss).ok = false ∧ (sm.RegisterStates ss).sm = sm := by
  unfold StateMachine.RegisterStates
  simp only [hlen, if_true, and_self]

theorem RegisterStates_short_witness :
    [some idleState].length ≤ 1 ∧
      ((freshMachine.RegisterStates [some idleState]).ok = false ∧
        (freshMachine.RegisterStates [some idleState]).sm = freshMachine) :=
  ⟨by decide, RegisterStates_short freshMachine [some idleState] (by decide)⟩

/-- C8: `RegisterState` returns false exactly on nil, and then the machine is
unchanged.  On a state `st` it returns true; afterwards the map holds under
`st.Name` the state `st` with tick counter 0 and owner this machine, every
other key reads as before, and no other field of the machine (starting,
stopping, saved, current, ...) has changed. -/
theorem RegisterState_spec (sm : StateMachine T) (s : Option (State T)) (st : State T) (j : T) :
    ((sm.RegisterState s).ok = false ↔ s = none) ∧
      (sm.RegisterState none).sm = sm ∧
      (sm.RegisterState (some st)).ok = true ∧
      mapGet (sm.RegisterState (some st)).sm.states j =
        (if j = st.Name then some { st with tickCnt := 0, machine := some sm.addr }
         else mapGet sm.states j) ∧
      (sm.RegisterState (some st)).sm.GetState = sm.GetState ∧
      (sm.RegisterState (some st)).sm =
        { sm with states := (sm.RegisterState (some st)).sm.states } := by
  refine ⟨?_, rfl, rfl, ?_, rfl, rfl⟩
  · cases s <;> simp [StateMachine.RegisterState]
  · by_cases hj : j = st.Name
    · subst hj
      simp only [StateMachine.RegisterState, if_true]
      exact mapGet_mapSet_same _ _ _
    · simp only [StateMachine.RegisterState, hj, if_false]
      exact mapGet_mapSet_other _ _ _ _ hj

/-- C9: `SetStartingState k` returns true exactly when `k` is a key of the
state map; then the starting key becomes `k` and nothing else changes, and
otherwise the machine is unchanged.  `SetStoppingState` does the same with
the stopping key. -/
theorem SetStartingState_SetStoppingState_spec (sm : StateMachine T) (k : T) :
    ((sm.SetStartingState k).ok = true ↔ sm.hasState k = true) ∧
      (sm.SetStartingState k).sm = (if sm.hasState k = true then { sm with starting := k } else sm) ∧
      ((sm.SetStoppingState k).ok = true ↔ sm.hasState k = true) ∧
      (sm.SetStoppingState k).sm = (if sm.hasState k = true then { sm with stopping := k } else sm) := by
  unfold StateMachine.SetStartingState StateMachine.SetStoppingState StateMachine.hasState
  cases mapGet sm.states k <;> simp

theorem lastNamed_cons (s : State T) (rest : List (State T)) (k : T) :
    lastNamed (s :: rest) k =
      match lastNamed rest k with
      | some t => some t
      | none => if s.Name = k then some s else none := rfl

theorem lastNamed_name (ss : List (State T)) (k : T) (t : State T)
    (h : lastNamed ss k = some t) : t.Name = k := by
  induction ss with
  | nil => simp [lastNamed] at h
  | cons s rest ih =>
    unfold lastNamed at h
    cases hr : lastNamed rest k with
    | some u =>
      rw [hr] at h
      cases h
      exact ih hr
    | none =>
      rw [hr] at h
      by_cases hn : s.Name = k
      · simp only [hn, if_true] at h
        cases h
        exact hn
      · simp [hn] at h

theorem lastNamed_isSome_of_mem (ss : List (State T)) (s : State T) (h : s ∈ ss) :
    (lastNamed ss s.Name).isSome = true := by
  induction ss with
  | nil => cases h
  | cons a rest ih =>
    unfold lastNamed
    cases hr : lastNamed rest s.Name with
    | some u => rfl
    | none =>
      rcases List.mem_cons.mp h with e | e
      · subst e
        simp
      · have := ih e
        rw [hr] at this
        cases this

/-- The loop of `RegisterStates` on a list without nil: it succeeds, only
the state map changes, and a key reads the last entry of the list with that
name (tick counter 0, owner this machine) or, if there is none, what it read
before. -/
theorem registerEach_map_some (ss : List (State T)) :
    ∀ sm : StateMachine T,
      (sm.registerEach (ss.map some)).ok = true ∧
      (sm.registerEach (ss.map some)).sm =
        { sm with states := (sm.registerEach (ss.map some)).sm.states } ∧
      ∀ k, mapGet (sm.registerEach (ss.map some)).sm.states k =
        match lastNamed ss k with
        | some t => some { t with tickCnt := 0, machine := some sm.addr }
        | none => mapGet sm.states k := by
  induction ss with
  | nil =>
    intro sm
    refine ⟨rfl, rfl, ?_⟩
    intro k
    rfl
  | cons s rest ih =>
    intro sm
    have hstep : sm.registerEach ((s :: rest).map some) =
        ⟨((sm.RegisterState (some s)).sm.registerEach (rest.map some)).ok,
         ((sm.RegisterState (some s)).sm.registerEach (rest.map some)).sm,
         (sm.RegisterState (some s)).logs ++
           ((sm.RegisterState (some s)).sm.registerEach (rest.map some)).logs⟩ := by
      simp [StateMachine.registerEach, StateMachine.RegisterState]
    obtain ⟨h1, h2, h3⟩ := ih (sm.RegisterState (some s)).sm
    rw [hstep]
    refine ⟨h1, ?_, ?_⟩
    · simp only
      rw [h2]
      rfl
    · intro k
      simp only
      rw [h3 k, lastNamed_cons]
      cases hr : lastNamed rest k with
      | some u => rfl
      | none =>
        simp only
        by_cases hn : s.Name = k
        · subst hn
          simp only [if_true, StateMachine.RegisterState]
          exact mapGet_mapSet_same _ _ _
        · have hn2 : k ≠ s.Name := fun e => hn e.symm
          simp only [hn, if_false, StateMachine.RegisterState]
          exact mapGet_mapSet_other _ _ _ _ hn2

theorem SetStartingState_of_key (sm : StateMachine T) (k : T) (v : State T)
    (h : mapGet sm.states k = some v) :
    (sm.SetStartingState k).sm = { sm with starting := k } := by
  simp [StateMachine.SetStartingState, h]

theorem SetStoppingState_of_key (sm : StateMachine T) (k : T) (v : State T)
    (h : mapGet sm.states k = some v) :
    (sm.SetStoppingState k).sm = { sm with stopping := k } := by
  simp [StateMachine.SetStoppingState, h]

/-- What `RegisterStates` makes of a list of two or more states, none nil,
whose first element is `first` and whose last is `last`. -/
theorem RegisterStates_map_some (sm : StateMachine T) (ss : List (State T))
    (first last : State T) (hlen : 2 ≤ ss.length)
    (hf : ss.head? = some first) (hl : ss.getLast? = some last) :
    (sm.RegisterStates (ss.map some)).ok = true ∧
      (sm.RegisterStates (ss.map some)).sm =
        { sm with states := (sm.registerEach (ss.map some)).sm.states
                  starting := first.Name
                  stopping := last.Name } := by
  obtain ⟨h1, h2, h3⟩ := registerEach_map_some ss sm
  have hlen2 : ¬ (ss.map some).length ≤ 1 := by
    rw [List.length_map]; omega
  have hf2 : (ss.map some).head? = some (some first) := by
    rw [List.head?_map, hf]; rfl
  have hl2 : (ss.map some).getLast? = some (some last) := by
    rw [List.getLast?_map, hl]; rfl
  have hfm : first ∈ ss := List.mem_of_mem_head? hf
  have hlm : last ∈ ss := List.mem_of_mem_getLast? hl
  have hfk : ∃ v, mapGet (sm.registerEach (ss.map some)).sm.states first.Name = some v := by
    have := lastNamed_isSome_of_mem ss first hfm
    rw [h3 first.Name]
    cases hq : lastNamed ss first.Name with
    | none => rw [hq] at this; cases this
    | some t => exact ⟨_, rfl⟩
  have hlk : ∃ v, mapGet (sm.registerEach (ss.map some)).sm.states last.Name = some v := by
    have := lastNamed_isSome_of_mem ss last hlm
    rw [h3 last.Name]
    cases hq : lastNamed ss last.Name with
    | none => rw [hq] at this; cases this
    | some t => exact ⟨_, rfl⟩
  obtain ⟨vf, hvf⟩ := hfk
  obtain ⟨vl, hvl⟩ := hlk
  have e1 := SetStartingState_of_key _ _ _ hvf
  have hvl2 : mapGet ((sm.registerEach (ss.map some)).sm.SetStartingState first.Name).sm.states
      last.Name = some vl := by
    rw [SetStartingState_states]; exact hvl
  have e2 := SetStoppingState_of_key _ _ _ hvl2
  unfold StateMachine.RegisterStates
  simp only [hlen2, if_false, h1, Bool.true_eq_false, hf2, hl2]
  refine ⟨trivial, ?_⟩
  rw [e2, e1, h2]

/-- C6: on a list of two or more states, none nil, `RegisterStates` returns
true.  Afterwards every name of the list is a key of the state map; a key
reads the last entry of the list with that name, with tick counter 0 (and
owner this machine), or what it read before if the list has no such entry;
the starting key is the name of the first element and the stopping key the
name of the last; nothing else in the machine has changed. -/
theorem RegisterStates_registers (sm : StateMachine T) (ss : List (State T)) (k : T)
    (hlen : 2 ≤ ss.length) :
    (sm.RegisterStates (ss.map some)).ok = true ∧
      (ss.all fun s => (sm.RegisterStates (ss.map some)).sm.hasState s.Name) = true ∧
      mapGet (sm.RegisterStates (ss.map some)).sm.states k =
        (match lastNamed ss k with
         | some t => some { t with tickCnt := 0, machine := some sm.addr }
         | none => mapGet sm.states k) ∧
      ss.head?.map State.Name = some (sm.RegisterStates (ss.map some)).sm.starting ∧
      ss.getLast?.map State.Name = some (sm.RegisterStates (ss.map some)).sm.stopping ∧
      (sm.RegisterStates (ss.map some)).sm =
        { sm with states := (sm.RegisterStates (ss.map some)).sm.states
                  starting := (sm.RegisterStates (ss.map some)).sm.starting
                  stopping := (sm.RegisterStates (ss.map some)).sm.stopping } := by
  have hne : ss ≠ [] := by
    intro e; subst e; simp at hlen
  obtain ⟨first, hf⟩ : ∃ first, ss.head? = some first := by
    cases ss with
    | nil => exact absurd rfl hne
    | cons a tl => exact ⟨a, rfl⟩
  obtain ⟨last, hl⟩ : ∃ last, ss.getLast? = some last :=
    ⟨ss.getLast hne, List.getLast?_eq_getLast _ hne⟩
  obtain ⟨hok, hsm⟩ := RegisterStates_map_some sm ss first last hlen hf hl
  obtain ⟨_, _, h3⟩ := registerEach_map_some ss sm
  have hget : ∀ j, mapGet (sm.RegisterStates (ss.map some)).sm.states j =
      (match lastNamed ss j with
       | some t => some { t with tickCnt := 0, machine := some sm.addr }
       | none => mapGet sm.states j) := by
    intro j
    rw [hsm]
    exact h3 j
  refine ⟨hok, ?_, hget k, ?_, ?_, ?_⟩
  · rw [List.all_eq_true]
    intro s hs
    have := lastNamed_isSome_of_mem ss s hs
    unfold StateMachine.hasState
    rw [hget s.Name]
    cases hq : lastNamed ss s.Name with
    | none => rw [hq] at this; cases this
    | some t => rfl
  · rw [hsm, hf]; rfl
  · rw [hsm, hl]; rfl
  · rw [hsm]

theorem RegisterStates_registers_witness :
    2 ≤ [idleState, stopState].length ∧
      ((freshMachine.RegisterStates ([idleState, stopState].map some)).ok = true ∧
      ([idleState, stopState].all fun s =>
        (freshMachine.RegisterStates ([idleState, stopState].map some)).sm.hasState s.Name) = true ∧
      mapGet (freshMachine.RegisterStates ([idleState, stopState].map some)).sm.states "Stop" =
        (match lastNamed [idleState, stopState] "Stop" with
         | some t => some { t with tickCnt := 0, machine := some freshMachine.addr }
         | none => mapGet freshMachine.states "Stop") ∧
      [idleState, stopState].head?.map State.Name =
        some (freshMachine.RegisterStates ([idleState, stopState].map some)).sm.starting ∧
      [idleState, stopState].getLast?.map State.Name =
        some (freshMachine.RegisterStates ([idleState, stopState].map some)).sm.stopping ∧
      (freshMachine.RegisterStates ([idleState, stopState].map some)).sm =
        { freshMachine with
            states := (freshMachine.RegisterStates ([idleState, stopState].map some)).sm.states
            starting := (freshMachine.RegisterStates ([idleState, stopState].map some)).sm.starting
            stopping := (freshMachine.RegisterStates ([idleState, stopState].map some)).sm.stopping }) :=
  ⟨by decide, RegisterStates_registers freshMachine [idleState, stopState] "Stop" (by decide)⟩

end Register

/-! ## Startup -/

section Start

variable {T : Type} [DecidableEq T]

theorem Startup_of_starting_key (sm : StateMachine T) (v : State T)
    (h : mapGet sm.states sm.starting = some v) (hn : v.Name = sm.starting) :
    sm.Startup.ok = true ∧ sm.Startup.sm.GetState = sm.starting := by
  have hlen : ¬ sm.states.length = 0 := by
    intro e
    have : sm.states = [] := List.length_eq_zero.mp e
    rw [this] at h
    simp [mapGet] at h
  unfold StateMachine.Startup
  simp only [hlen, if_false, true_and]
  unfold StateMachine.MoveToState
  by_cases hc : sm.GetState = sm.starting
  · simp only [hc, if_true]
    exact hc
  · simp only [hc, if_false, h]
    exact hn

/-- C5: on a machine just made by `NewStateMachine`, after `RegisterStates`
of a list of two or more states, none nil (which returns true), `Startup`
returns true and `GetState` right after it, before any trigger has run, is
the name of the first element of the list.  (The proof does not use that the
machine is new.) -/
theorem Startup_reaches_starting [Inhabited T] (addr : Nat) (name : String) (precision : Int)
    (sm : StateMachine T) (ss : List (State T))
    (_hnew : NewStateMachine addr name precision = some sm) (hlen : 2 ≤ ss.length) :
    (sm.RegisterStates (ss.map some)).ok = true ∧
      (sm.RegisterStates (ss.map some)).sm.Startup.ok = true ∧
      some (sm.RegisterStates (ss.map some)).sm.Startup.sm.GetState =
        ss.head?.map State.Name := by
  have hne : ss ≠ [] := by
    intro e; subst e; simp at hlen
  obtain ⟨first, hf⟩ : ∃ first, ss.head? = some first := by
    cases ss with
    | nil => exact absurd rfl hne
    | cons a tl => exact ⟨a, rfl⟩
  obtain ⟨last, hl⟩ : ∃ last, ss.getLast? = some last :=
    ⟨ss.getLast hne, List.getLast?_eq_getLast _ hne⟩
  obtain ⟨hok, hsm⟩ := RegisterStates_map_some sm ss first last hlen hf hl
  obtain ⟨_, _, h3⟩ := registerEach_map_some ss sm
  have hstart : (sm.RegisterStates (ss.map some)).sm.starting = first.Name := by rw [hsm]
  have hsome := lastNamed_isSome_of_mem ss first (List.mem_of_mem_head? hf)
  cases hq : lastNamed ss first.Name with
  | none => rw [hq] at hsome; cases hsome
  | some t =>
    have hget : mapGet (sm.RegisterStates (ss.map some)).sm.states
        (sm.RegisterStates (ss.map some)).sm.starting =
        some { t with tickCnt := 0, machine := some sm.addr } := by
      rw [hstart, hsm]
      simp only
      rw [h3 first.Name, hq]
    have hname : ({ t with tickCnt := 0, machine := some sm.addr } : State T).Name =
        (sm.RegisterStates (ss.map some)).sm.starting := by
      rw [hstart]
      exact lastNamed_name ss first.Name t hq
    obtain ⟨h1, h2⟩ := Startup_of_starting_key _ _ hget hname
    refine ⟨hok, h1, ?_⟩
    rw [h2, hstart, hf]
    rfl

theorem Startup_reaches_starting_witness :
    NewStateMachine 1 "fsm" 10 = some freshMachine ∧ 2 ≤ [idleState, stopState].length ∧
      ((freshMachine.RegisterStates ([idleState, stopState].map some)).ok = true ∧
        (freshMachine.RegisterStates ([idleState, stopState].map some)).sm.Startup.ok = true ∧
        some (freshMachine.RegisterStates ([idleState, stopState].map some)).sm.Startup.sm.GetState =
          [idleState, stopState].head?.map State.Name) :=
  ⟨by decide, by decide,
    Startup_reaches_starting 1 "fsm" 10 freshMachine [idleState, stopState] (by decide) (by decide)⟩

end Start

/-! ## Triggers -/

section Trigger

variable {T : Type} [DecidableEq T]

theorem State.afterCalls_eq (s : State T) (owners : Nat → StateMachine T)
    (h0 : s.tickCnt = 0) :
    ∀ n, n < uintSize → s.afterCalls owners n = { s with tickCnt := n } := by
  intro n
  induction n with
  | zero =>
    intro _
    cases s
    simp only [State.afterCalls] at *
    simp [h0]
  | succ n ih =>
    intro hn
    have hn1 : n < uintSize := Nat.lt_of_succ_lt hn
    simp only [State.afterCalls]
    rw [State.trigger_state, ih hn1]
    simp only [Nat.mod_eq_of_lt hn]

/-- C4: take a state as `RegisterState` stores it (tick interval `N`).  The
`k`-th call of its trigger since then (`1 ≤ k`, below the wrap of the
counter), whatever its owner looks like at each call, invokes the action
exactly once with the state's `Args` if an action is bound and `N = 0` or
`N` divides `k`, and invokes nothing otherwise; the tick counter is `k`
afterwards. -/
theorem trigger_fires_on_multiples (sm : StateMachine T) (s0 s : State T)
    (owners : Nat → StateMachine T) (k : Nat)
    (hreg : mapGet (sm.RegisterState (some s0)).sm.states s0.Name = some s)
    (hk : 1 ≤ k) (hlt : k < uintSize) :
    (s.kthCall owners k).invoked =
        (match s.Action with
         | some a => if s.Ticks = 0 ∨ s.Ticks ∣ k then [(a, s.Args)] else []
         | none => []) ∧
      (s.kthCall owners k).state.tickCnt = k := by
  have hs : s = { s0 with tickCnt := 0, machine := some sm.addr } := by
    simp only [StateMachine.RegisterState] at hreg
    rw [mapGet_mapSet_same] at hreg
    cases hreg
    rfl
  have h0 : s.tickCnt = 0 := by rw [hs]
  have hk1 : k - 1 < uintSize := by omega
  have hkk : (k - 1 + 1) % uintSize = k := by
    rw [Nat.sub_add_cancel hk]
    exact Nat.mod_eq_of_lt hlt
  have hdvd : (k % s.Ticks = 0) ↔ s.Ticks ∣ k := Nat.dvd_iff_mod_eq_zero.symm
  unfold State.kthCall
  rw [State.afterCalls_eq s owners h0 (k - 1) hk1]
  refine ⟨?_, ?_⟩
  · unfold State.trigger
    simp only [hkk, hdvd]
    by_cases hc : s.Ticks = 0 ∨ s.Ticks ∣ k
    · simp only [hc, if_true]
      cases s.Action with
      | none => rfl
      | some a => simp only; split <;> rfl
    · simp only [hc, if_false]
      cases s.Action <;> rfl
  · rw [State.trigger_state]
    exact hkk

theorem trigger_fires_on_multiples_witness :
    mapGet (freshMachine.RegisterState (some everyThird)).sm.states everyThird.Name =
        some { everyThird with tickCnt := 0, machine := some 1 } ∧
      1 ≤ 6 ∧ 6 < uintSize ∧
      (({ everyThird with tickCnt := 0, machine := some 1 } : State String).kthCall
          (fun _ => twoStateMachine) 6).invoked = [(3, 9)] :=
  ⟨by decide, by decide, by decide,
    (trigger_fires_on_multiples freshMachine everyThird
      { everyThird with tickCnt := 0, machine := some 1 } (fun _ => twoStateMachine) 6
      (by decide) (by decide) (by decide)).1⟩

/-- C10 (the code at the failing input): on the started two-state machine,
after the loop's first trigger, `MoveToState("Stop")` and one tick, `stopped`
is closed and nothing has failed; the next tick invokes the action of `Stop`
again and closes `stopped` a second time, which panics. -/
theorem stopped_closed_twice :
    ((Run.start startedMachine).steps (stopTwice.take 3)).sm.stopped = true ∧
      ((Run.start startedMachine).steps (stopTwice.take 3)).fault = none ∧
      ((Run.start startedMachine).steps stopTwice).fault = some Fault.closeOfClosedChannel ∧
      ((Run.start startedMachine).steps stopTwice).invoked = [(1, 7), (2, 8), (2, 8)] := by
  decide

end Trigger

/-! ## Failure, Startup and save/restore -/

section Failure

variable {T : Type} [DecidableEq T]

theorem states_eq_nil_iff (sm : StateMachine T) :
    sm.states = [] ↔ ∀ k, sm.hasState k = false := by
  constructor
  · intro h k
    simp [StateMachine.hasState, h, mapGet]
  · intro h
    cases hs : sm.states with
    | nil => rfl
    | cons p m =>
      have := h p.1
      simp [StateMachine.hasState, hs, mapGet] at this

/-- C15: `Startup` returns false exactly when no state is registered, and
then the machine is as before (no move, no loop goroutine); in every other
case it returns true, having moved to the starting state and started one
loop goroutine. -/
theorem Startup_spec (sm : StateMachine T) :
    (sm.Startup.ok = false ↔ ∀ k, sm.hasState k = false) ∧
      sm.Startup.sm =
        (if sm.Startup.ok = true then
          { (sm.MoveToState sm.starting).sm with
              loops := (sm.MoveToState sm.starting).sm.loops + 1 }
         else sm) ∧
      (sm.MoveToState sm.starting).sm.loops = sm.loops := by
  refine ⟨?_, ?_, ?_⟩
  · rw [← states_eq_nil_iff]
    unfold StateMachine.Startup
    by_cases h : sm.states.length = 0
    · simp [h, List.length_eq_zero.mp h]
    · have h2 : sm.states ≠ [] := fun e => h (by rw [e]; rfl)
      simp [h, h2]
  · unfold StateMachine.Startup
    by_cases h : sm.states.length = 0
    · simp [h]
    · simp [h]
  · unfold StateMachine.MoveToState
    split
    · rfl
    · split <;> rfl

theorem registerEach_frame (ss : List (Option (State T))) :
    ∀ sm : StateMachine T,
      (sm.registerEach ss).sm = { sm with states := (sm.registerEach ss).sm.states } := by
  induction ss with
  | nil => intro sm; rfl
  | cons s rest ih =>
    intro sm
    cases s with
    | none => rfl
    | some st =>
      have h := ih (sm.RegisterState (some st)).sm
      simp only [StateMachine.registerEach, StateMachine.RegisterState, Bool.true_eq_false,
        if_false] at h ⊢
      rw [h]

theorem registerEach_stops_at_nil (pre : List (State T)) (post : List (Option (State T))) :
    ∀ sm : StateMachine T,
      (sm.registerEach (pre.map some ++ none :: post)).ok = false ∧
      (sm.registerEach (pre.map some ++ none :: post)).sm =
        (sm.registerEach (pre.map some)).sm := by
  induction pre with
  | nil => intro sm; exact ⟨rfl, rfl⟩
  | cons s rest ih =>
    intro sm
    have h := ih (sm.RegisterState (some s)).sm
    simp only [List.map_cons, List.cons_append, StateMachine.registerEach,
      StateMachine.RegisterState, Bool.true_eq_false, if_false] at h ⊢
    exact h

/-- C17: on a list of two or more entries whose first nil stands right
after the entries `pre`, `RegisterStates` returns false and leaves the
machine as the registration of `pre` alone leaves it: a key reads the last
entry of `pre` with that name (tick counter 0) or, if `pre` has none, what
it read before, so nothing behind the nil is registered; and nothing but
the state map has changed (starting and stopping key are as before). -/
theorem RegisterStates_no_rollback (sm : StateMachine T) (pre : List (State T))
    (post : List (Option (State T))) (k : T)
    (hlen : 2 ≤ (pre.map some ++ none :: post).length) :
    (sm.RegisterStates (pre.map some ++ none :: post)).ok = false ∧
      (sm.RegisterStates (pre.map some ++ none :: post)).sm =
        (sm.registerEach (pre.map some)).sm ∧
      mapGet (sm.RegisterStates (pre.map some ++ none :: post)).sm.states k =
        (match lastNamed pre k with
         | some t => some { t with tickCnt := 0, machine := some sm.addr }
         | none => mapGet sm.states k) ∧
      (sm.RegisterStates (pre.map some ++ none :: post)).sm =
        { sm with states := (sm.RegisterStates (pre.map some ++ none :: post)).sm.states } := by
  obtain ⟨h1, h2⟩ := registerEach_stops_at_nil pre post sm
  obtain ⟨_, h4, h5⟩ := registerEach_map_some pre sm
  have hlen2 : ¬ (pre.map some ++ none :: post).length ≤ 1 := by omega
  have hsm : (sm.RegisterStates (pre.map some ++ none :: post)).sm =
      (sm.registerEach (pre.map some)).sm := by
    unfold StateMachine.RegisterStates
    simp only [hlen2, if_false, h1, if_true]
    exact h2
  refine ⟨?_, hsm, ?_, ?_⟩
  · unfold StateMachine.RegisterStates
    simp only [hlen2, if_false, h1, if_true]
  · rw [hsm]; exact h5 k
  · rw [hsm]; exact h4

theorem RegisterStates_no_rollback_witness :
    2 ≤ ([idleState].map some ++ none :: [some stopState]).length ∧
      (freshMachine.RegisterStates ([idleState].map some ++ none :: [some stopState])).ok = false ∧
      (freshMachine.RegisterStates ([idleState].map some ++ none :: [some stopState])).sm =
        (freshMachine.registerEach ([idleState].map some)).sm :=
  ⟨by decide,
    (RegisterStates_no_rollback freshMachine [idleState] [some stopState] "Idle" (by decide)).1,
    (RegisterStates_no_rollback freshMachine [idleState] [some stopState] "Idle" (by decide)).2.1⟩

/-- C20 (the code at the failing input): after `RegisterState(Idle)` alone
on a new machine, `Startup` returns true, but the current state is still the
zero key, which is not a key of the state map, and the trigger the loop runs
first finds no state and panics with a nil dereference. -/
theorem Startup_without_starting_state :
    NewStateMachine 1 "fsm" 10 = some freshMachine ∧
      idleOnlyMachine.hasState "Idle" = true ∧
      idleOnlyMachine.Startup.ok = true ∧
      idleOnlyMachine.Startup.sm.GetState = "" ∧
      idleOnlyMachine.Startup.sm.hasState idleOnlyMachine.Startup.sm.GetState = false ∧
      (idleOnlyMachine.Startup.sm.call Call.tick).fault = some Fault.nilDereference := by
  decide

end Failure

/-! ## SaveState and RestoreState -/

section Save

variable {T : Type} [DecidableEq T]

theorem MoveToState_frame (sm : StateMachine T) (k : T) :
    (sm.MoveToState k).sm = { sm with current := (sm.MoveToState k).sm.current } := by
  unfold StateMachine.MoveToState
  split
  · rfl
  · split <;> rfl

theorem moves_frame (ks : List T) :
    ∀ sm : StateMachine T, sm.moves ks = { sm with current := (sm.moves ks).current } := by
  induction ks with
  | nil => intro sm; rfl
  | cons k rest ih =>
    intro sm
    have h := ih (sm.MoveToState k).sm
    have h2 := MoveToState_frame sm k
    simp only [StateMachine.moves, List.foldl_cons] at h ⊢
    rw [h, h2]

/-- C14 (as stated, refuted): on the two-state machine before `Startup` the
current state is the zero key, which is not registered.  After `SaveState`,
`MoveToState("Idle")` and `RestoreState`, `GetState` returns `Idle`, not the
key that was current at the save. -/
theorem RestoreState_counterexample :
    twoStateMachine.GetState = "" ∧
      ((twoStateMachine.SaveState.moves ["Idle"]).RestoreState).sm.GetState = "Idle" := by
  decide

/-- C14 (amended): on a machine produced by `NewStateMachine` and calls
whose current state is a key of the state map, after `SaveState`, any
sequence of `MoveToState` calls and `RestoreState`, `GetState` returns the
key that was current at the save; `SaveState` changes the saved slot only. -/
theorem SaveState_RestoreState_round_trip [Inhabited T] (sm : StateMachine T) (ks : List T)
    (hr : Reachable sm) (hcur : sm.hasState sm.GetState = true) :
    ((sm.SaveState.moves ks).RestoreState).sm.GetState = sm.GetState ∧
      sm.SaveState = { sm with saved := sm.GetState } := by
  refine ⟨?_, rfl⟩
  have hw := Reachable.wellKeyed sm hr
  have hfr := moves_frame ks sm.SaveState
  cases hs : mapGet sm.states sm.GetState with
  | none => simp [StateMachine.hasState, hs] at hcur
  | some st =>
    have hn : st.Name = sm.GetState := hw _ _ hs
    have hsaved : (sm.SaveState.moves ks).saved = sm.current := by rw [hfr]; rfl
    have hstates : (sm.SaveState.moves ks).states = sm.states := by rw [hfr]; rfl
    unfold StateMachine.RestoreState StateMachine.MoveToState
    simp only [hsaved, hstates]
    by_cases hc : (sm.SaveState.moves ks).GetState = sm.current
    · simp only [hc, if_true]
      rfl
    · have hs2 : mapGet sm.states sm.current = some st := hs
      simp only [hc, if_false, hs2]
      exact hn

theorem SaveState_RestoreState_round_trip_witness :
    Reachable startedMachine ∧ startedMachine.hasState startedMachine.GetState = true ∧
      ((startedMachine.SaveState.moves ["Stop", "Nope"]).RestoreState).sm.GetState =
        startedMachine.GetState :=
  have hr : Reachable startedMachine :=
    Reachable.call twoStateMachine Call.Startup
      (Reachable.call freshMachine (Call.RegisterStates [some idleState, some stopState])
        (Reachable.new 1 "fsm" 10 freshMachine (by decide)))
  ⟨hr, by decide,
    (SaveState_RestoreState_round_trip startedMachine ["Stop", "Nope"] hr (by decide)).1⟩

end Save

/-! ## Tick counters -/

section Counter

variable {T : Type} [DecidableEq T]

theorem trigger_of_some (sm : StateMachine T) (s : State T)
    (hs : mapGet sm.states sm.GetState = some s) :
    sm.trigger.sm =
      { sm with states := mapSet sm.states sm.GetState
                  { s with tickCnt := (s.tickCnt + 1) % uintSize }
                stopped := sm.trigger.sm.stopped } := by
  simp only [StateMachine.trigger, hs, State.trigger_state]
  cases hc : (s.trigger (sm.deref s.machine)).closes with
  | true =>
    cases hst : sm.stopped with
    | true => simp only [if_true, hst]
    | false => simp only [Bool.false_eq_true, if_true, if_false]
  | false => simp only [Bool.false_eq_true, if_false]

theorem MoveToState_of_key (sm : StateMachine T) (k : T) (st : State T)
    (hw : sm.WellKeyed) (hs : mapGet sm.states k = some st) :
    (sm.MoveToState k).sm = { sm with current := k } := by
  have hn : st.Name = k := hw k st hs
  unfold StateMachine.MoveToState
  by_cases hc : sm.GetState = k
  · simp only [hc, if_true]
    have : sm.current = k := hc
    rw [← this]
  · simp only [hc, if_false, hs, hn]

theorem countingMachine_zero :
    countingMachine 0 =
      ((freshMachine.call (Call.RegisterStates [some quietState, some stopState])).sm.call
        Call.Startup).sm := by
  decide

theorem countingMachine_tick (n : Nat) (h : n + 1 < uintSize) :
    ((countingMachine n).call Call.tick).sm = countingMachine (n + 1) := by
  simp [countingMachine, StateMachine.call, StateMachine.trigger, StateMachine.deref,
    StateMachine.GetState, mapGet, mapSet, State.trigger, quietState, Nat.mod_eq_of_lt h]

theorem countingMachine_reachable (n : Nat) (h : n < uintSize) :
    Reachable (countingMachine n) := by
  induction n with
  | zero =>
    rw [countingMachine_zero]
    exact Reachable.call _ _ (Reachable.call _ _ (Reachable.new 1 "fsm" 10 freshMachine (by decide)))
  | succ n ih =>
    rw [← countingMachine_tick n h]
    exact Reachable.call _ _ (ih (Nat.lt_of_succ_lt h))

/-- C13 (as stated, refuted): the machine whose loop has triggered `Quiet`
`2^64 - 1` times can be produced; its current state has tick counter
`2^64 - 1`, and one more trigger leaves that counter at 0, not one higher. -/
theorem trigger_wraps_counter_counterexample :
    Reachable (countingMachine (uintSize - 1)) ∧
      (mapGet (countingMachine (uintSize - 1)).states
        (countingMachine (uintSize - 1)).GetState).map State.tickCnt =
          some 18446744073709551615 ∧
      (mapGet (countingMachine (uintSize - 1)).trigger.sm.states
        (countingMachine (uintSize - 1)).GetState).map State.tickCnt = some 0 :=
  ⟨countingMachine_reachable (uintSize - 1) (by decide), by decide, by decide⟩

theorem trigger_current (sm : StateMachine T) : sm.trigger.sm.current = sm.current := by
  cases hs : mapGet sm.states sm.GetState with
  | none => simp only [StateMachine.trigger, hs]
  | some s => rw [trigger_of_some sm s hs]

theorem trigger_other_key (sm : StateMachine T) (j : T) (hj : j ≠ sm.GetState) :
    mapGet sm.trigger.sm.states j = mapGet sm.states j := by
  cases hs : mapGet sm.states sm.GetState with
  | none => simp only [StateMachine.trigger, hs]
  | some s =>
    rw [trigger_of_some sm s hs]
    exact mapGet_mapSet_other _ _ _ _ hj

/-- A call made while the machine is away from key `a` keeps it away and
leaves the entry under `a` as it is. -/
theorem call_away (sm : StateMachine T) (a : T) (s : State T) (c : Call T)
    (hc : c.awayFrom a = true) (hw : sm.WellKeyed) (hne : sm.GetState ≠ a)
    (hs : mapGet sm.states a = some s) :
    (sm.call c).sm.GetState ≠ a ∧ mapGet (sm.call c).sm.states a = some s := by
  cases c with
  | tick =>
    simp only [StateMachine.call]
    by_cases h0 : sm.loops = 0
    · simp only [h0, if_true]; exact ⟨hne, hs⟩
    · simp only [h0, if_false]
      refine ⟨?_, ?_⟩
      · have := trigger_current sm
        simp only [StateMachine.GetState] at hne ⊢
        rw [this]; exact hne
      · rw [trigger_other_key sm a (fun e => hne e.symm)]; exact hs
  | loopQuit =>
    simp only [StateMachine.call]
    split <;> exact ⟨hne, hs⟩
  | MoveToState k =>
    have hk : k ≠ a := by simpa [Call.awayFrom] using hc
    refine ⟨?_, ?_⟩
    · simp only [StateMachine.call, StateMachine.MoveToState]
      by_cases hcur : sm.GetState = k
      · simp only [hcur, if_true]; rw [← hcur]; exact hne
      · simp only [hcur, if_false]
        cases hsk : mapGet sm.states k with
        | none => exact hne
        | some sk =>
          simp only [StateMachine.GetState]
          rw [hw k sk hsk]; exact hk
    · simp only [StateMachine.call]
      rw [MoveToState_states]; exact hs
  | EnableStateTrace enable => cases hc
  | RegisterState s1 => cases hc
  | RegisterStates ss => cases hc
  | SetStartingState k => cases hc
  | SetStoppingState k => cases hc
  | Startup => cases hc
  | ShutdownEnter => cases hc
  | ShutdownLeave => cases hc
  | Pause => cases hc
  | Resume => cases hc
  | SaveState => cases hc
  | RestoreState => cases hc

theorem steps_away (a : T) (s : State T) (cs : List (Call T)) :
    ∀ r : Run T, r.sm.WellKeyed → r.sm.GetState ≠ a → mapGet r.sm.states a = some s →
      cs.all (fun c => c.awayFrom a) = true →
      (r.steps cs).sm.WellKeyed ∧ (r.steps cs).sm.GetState ≠ a ∧
        mapGet (r.steps cs).sm.states a = some s := by
  induction cs with
  | nil => intro r hw hne hs _; exact ⟨hw, hne, hs⟩
  | cons c rest ih =>
    intro r hw hne hs hcs
    simp only [List.all_cons, Bool.and_eq_true] at hcs
    simp only [Run.steps, List.foldl_cons]
    cases hf : r.fault with
    | some f =>
      have e : r.step c = r := by simp only [Run.step, hf]
      rw [e]
      exact ih r hw hne hs hcs.2
    | none =>
      have e : (r.step c).sm = (r.sm.call c).sm := by simp only [Run.step, hf]
      obtain ⟨g1, g2⟩ := call_away r.sm a s c hcs.1 hw hne hs
      apply ih
      · rw [e]; exact call_wellKeyed r.sm c hw
      · rw [e]; exact g1
      · rw [e]; exact g2
      · exact hcs.2

/-- C13 (amended): `MoveToState` changes no state, so no tick counter.  One
trigger raises the counter of the current state `s` by exactly 1 as long as
that counter is below the largest `uint`, and every other key reads as
before; both hold on every machine, with one state or many.  Hence, on a
machine produced by `NewStateMachine` and calls: after leaving `s` for
another registered state `b`, any run of triggers and moves to keys other
than that of `s`, and the move back, the next trigger leaves `s` at its old
count plus 1: nothing was reset. -/
theorem tick_counter_not_reset [Inhabited T] (sm : StateMachine T) (s : State T) (k j b : T)
    (mid : List (Call T)) :
    (sm.MoveToState k).sm.states = sm.states ∧
      (mapGet sm.states sm.GetState = some s → s.tickCnt + 1 < uintSize →
        mapGet sm.trigger.sm.states sm.GetState = some { s with tickCnt := s.tickCnt + 1 }) ∧
      (j ≠ sm.GetState → mapGet sm.trigger.sm.states j = mapGet sm.states j) ∧
      (Reachable sm → mapGet sm.states sm.GetState = some s → s.tickCnt + 1 < uintSize →
        sm.hasState b = true → b ≠ sm.GetState →
        mid.all (fun c => c.awayFrom sm.GetState) = true →
        mapGet (((Run.start (sm.MoveToState b).sm).steps mid).sm.MoveToState
            sm.GetState).sm.trigger.sm.states sm.GetState =
          some { s with tickCnt := s.tickCnt + 1 }) := by
  refine ⟨MoveToState_states sm k, ?_, trigger_other_key sm j, ?_⟩
  · intro hcur hlt
    rw [trigger_of_some sm s hcur]
    simp only [Nat.mod_eq_of_lt hlt]
    exact mapGet_mapSet_same _ _ _
  · intro hr hcur hlt hb hne hmid
    have hw := Reachable.wellKeyed sm hr
    have hmod : (s.tickCnt + 1) % uintSize = s.tickCnt + 1 := Nat.mod_eq_of_lt hlt
    cases hsb : mapGet sm.states b with
    | none => simp [StateMachine.hasState, hsb] at hb
    | some sb =>
      -- the move to `b`
      have e1 := MoveToState_of_key sm b sb hw hsb
      have hw1 : (sm.MoveToState b).sm.WellKeyed :=
        wellKeyed_of_states _ _ (MoveToState_states sm b) hw
      have hne1 : (sm.MoveToState b).sm.GetState ≠ sm.GetState := by
        rw [e1]; exact hne
      have hs1 : mapGet (sm.MoveToState b).sm.states sm.GetState = some s := by
        rw [MoveToState_states]; exact hcur
      -- the run while away
      obtain ⟨hw2, _, hs2⟩ :=
        steps_away sm.GetState s mid (Run.start (sm.MoveToState b).sm) hw1 hne1 hs1 hmid
      -- the move back
      have e3 := MoveToState_of_key _ sm.GetState s hw2 hs2
      have hs3 : mapGet (((Run.start (sm.MoveToState b).sm).steps mid).sm.MoveToState
            sm.GetState).sm.states
          (((Run.start (sm.MoveToState b).sm).steps mid).sm.MoveToState
            sm.GetState).sm.GetState = some s := by
        rw [e3]; exact hs2
      have hcur3 : (((Run.start (sm.MoveToState b).sm).steps mid).sm.MoveToState
          sm.GetState).sm.GetState = sm.GetState := by rw [e3]; rfl
      -- the trigger after re-entry
      rw [trigger_of_some _ s hs3]
      simp only [hmod, hcur3]
      exact mapGet_mapSet_same _ _ _

theorem tick_counter_not_reset_witness :
    mapGet loneMachine.states loneMachine.GetState = some { idleState with machine := some 1 } ∧
      ({ idleState with machine := some 1 } : State String).tickCnt + 1 < uintSize ∧
      mapGet loneMachine.trigger.sm.states loneMachine.GetState =
        some { idleState with tickCnt := 1, machine := some 1 } ∧
      Reachable tickedMachine ∧
      mapGet tickedMachine.states tickedMachine.GetState =
        some { idleState with tickCnt := 1, machine := some 1 } ∧
      tickedMachine.hasState "Quiet" = true ∧ "Quiet" ≠ tickedMachine.GetState ∧
      awayCalls.all (fun c => c.awayFrom tickedMachine.GetState) = true ∧
      ((Run.start (tickedMachine.MoveToState "Quiet").sm).steps awayCalls).fault = none ∧
      mapGet (((Run.start (tickedMachine.MoveToState "Quiet").sm).steps awayCalls).sm.MoveToState
          tickedMachine.GetState).sm.trigger.sm.states tickedMachine.GetState =
        some { idleState with tickCnt := 2, machine := some 1 } :=
  have hr : Reachable tickedMachine :=
    Reachable.call _ Call.tick
      (Reachable.call _ Call.Startup
        (Reachable.call freshMachine (Call.RegisterStates [some idleState, some quietState])
          (Reachable.new 1 "fsm" 10 freshMachine (by decide))))
  ⟨by decide, by decide,
    (tick_counter_not_reset loneMachine { idleState with machine := some 1 } "Idle" "Idle"
      "Idle" []).2.1 (by decide) (by decide),
    hr, by decide, by decide, by decide, by decide, by decide,
    (tick_counter_not_reset tickedMachine { idleState with tickCnt := 1, machine := some 1 }
      "Quiet" "Quiet" "Quiet" awayCalls).2.2.2 hr (by decide) (by decide) (by decide)
      (by decide) (by decide)⟩

end Counter

/-! ## The current state stays registered -/

section CurrentKey

variable {T : Type} [DecidableEq T]

theorem hasState_mapSet (m : List (T × State T)) (k j : T) (v : State T)
    (h : (mapGet m j).isSome = true) : (mapGet (mapSet m k v) j).isSome = true := by
  by_cases hj : j = k
  · subst hj
    rw [mapGet_mapSet_same]; rfl
  · rw [mapGet_mapSet_other _ _ _ _ hj]; exact h

theorem hasState_of_same (sm sm1 : StateMachine T) (hs : sm1.states = sm.states)
    (hc : sm1.current = sm.current) (h : sm.hasState sm.GetState = true) :
    sm1.hasState sm1.GetState = true := by
  unfold StateMachine.hasState StateMachine.GetState at *
  rw [hs, hc]; exact h

theorem MoveToState_current_key (sm : StateMachine T) (k : T) (hw : sm.WellKeyed)
    (h : sm.hasState sm.GetState = true) :
    (sm.MoveToState k).sm.hasState (sm.MoveToState k).sm.GetState = true := by
  cases hs : mapGet sm.states k with
  | none =>
    have e : (sm.MoveToState k).sm = sm := by
      unfold StateMachine.MoveToState
      by_cases hc : sm.GetState = k
      · simp only [hc, if_true]
      · simp only [hc, if_false, hs]
    rw [e]; exact h
  | some st =>
    rw [MoveToState_of_key sm k st hw hs]
    simp only [StateMachine.hasState, StateMachine.GetState, hs]
    rfl

theorem registerEach_hasState (ss : List (Option (State T))) :
    ∀ (sm : StateMachine T) (j : T), sm.hasState j = true →
      (sm.registerEach ss).sm.hasState j = true := by
  induction ss with
  | nil => intro sm j h; exact h
  | cons s rest ih =>
    intro sm j h
    cases s with
    | none => exact h
    | some st =>
      have h1 : (sm.RegisterState (some st)).sm.hasState j = true :=
        hasState_mapSet _ _ _ _ h
      have h2 := ih _ j h1
      simp only [StateMachine.registerEach, StateMachine.RegisterState, Bool.true_eq_false,
        if_false] at h2 ⊢
      exact h2

theorem RegisterStates_current (sm : StateMachine T) (ss : List (Option (State T))) :
    (sm.RegisterStates ss).sm.current = sm.current := by
  have hfr : (sm.registerEach ss).sm.current = sm.current := by
    rw [registerEach_frame ss sm]
  have hstart : ∀ (m : StateMachine T) (k : T), (m.SetStartingState k).sm.current = m.current := by
    intro m k
    unfold StateMachine.SetStartingState
    split <;> rfl
  have hstop : ∀ (m : StateMachine T) (k : T), (m.SetStoppingState k).sm.current = m.current := by
    intro m k
    unfold StateMachine.SetStoppingState
    split <;> rfl
  unfold StateMachine.RegisterStates
  by_cases hlen : ss.length ≤ 1
  · simp only [hlen, if_true]
  · simp only [hlen, if_false]
    cases hok : (sm.registerEach ss).ok with
    | false => simp only [if_true]; exact hfr
    | true =>
      simp only [Bool.true_eq_false, if_false]
      split
      · simp only [hstop, hstart, hfr]
      · exact hfr

theorem call_current_key (sm : StateMachine T) (c : Call T) (hw : sm.WellKeyed)
    (h : sm.hasState sm.GetState = true) :
    (sm.call c).sm.hasState (sm.call c).sm.GetState = true := by
  cases c with
  | EnableStateTrace enable => exact h
  | MoveToState k => exact MoveToState_current_key sm k hw h
  | RegisterState s =>
    cases s with
    | none => exact h
    | some st => exact hasState_mapSet _ _ _ _ h
  | RegisterStates ss =>
    have hcur := RegisterStates_current sm ss
    have hst := RegisterStates_states sm ss
    simp only [StateMachine.call, StateMachine.hasState, StateMachine.GetState, hcur, hst]
    by_cases hlen : ss.length ≤ 1
    · simp only [hlen, if_true]; exact h
    · simp only [hlen, if_false]
      exact registerEach_hasState ss sm sm.current h
  | SetStartingState k =>
    refine hasState_of_same sm _ (SetStartingState_states sm k) ?_ h
    simp only [StateMachine.call, StateMachine.SetStartingState]
    split <;> rfl
  | SetStoppingState k =>
    refine hasState_of_same sm _ (SetStoppingState_states sm k) ?_ h
    simp only [StateMachine.call, StateMachine.SetStoppingState]
    split <;> rfl
  | Startup =>
    simp only [StateMachine.call, StateMachine.Startup]
    split
    · exact h
    · exact MoveToState_current_key sm sm.starting hw h
  | ShutdownEnter => exact MoveToState_current_key sm sm.stopping hw h
  | ShutdownLeave =>
    cases hl : sm.ShutdownLeave with
    | none => simp only [StateMachine.call, hl]; exact h
    | some r =>
      simp only [StateMachine.call, hl]
      refine hasState_of_same sm _ (ShutdownLeave_states sm r hl) ?_ h
      unfold StateMachine.ShutdownLeave at hl
      split at hl
      · split at hl
        · cases hl; rfl
        · cases hl; rfl
      · cases hl
  | Pause => exact h
  | Resume => exact h
  | SaveState => exact h
  | RestoreState => exact MoveToState_current_key sm sm.saved hw h
  | tick =>
    simp only [StateMachine.call]
    split
    · exact h
    · cases hs : mapGet sm.states sm.GetState with
      | none => simp [StateMachine.hasState, hs] at h
      | some st =>
        rw [trigger_of_some sm st hs]
        simp only [StateMachine.hasState, StateMachine.GetState]
        rw [mapGet_mapSet_same]; rfl
  | loopQuit =>
    simp only [StateMachine.call]
    split <;> exact h

/-- C16: on a machine produced by `NewStateMachine` and calls whose current
state is a key of the state map, after any sequence of calls (`MoveToState`
with any argument, the registration and configuration methods, `SaveState`,
`RestoreState`, `Startup`, `Shutdown`, loop triggers, ...) `GetState` is
still a key of the state map. -/
theorem GetState_stays_registered [Inhabited T] (sm : StateMachine T) (cs : List (Call T))
    (hr : Reachable sm) (hcur : sm.hasState sm.GetState = true) :
    ((Run.start sm).steps cs).sm.hasState ((Run.start sm).steps cs).sm.GetState = true := by
  have key : ∀ (cs : List (Call T)) (r : Run T), r.sm.WellKeyed →
      r.sm.hasState r.sm.GetState = true →
      (r.steps cs).sm.hasState (r.steps cs).sm.GetState = true := by
    intro cs
    induction cs with
    | nil => intro r _ h; exact h
    | cons c rest ih =>
      intro r hw h
      simp only [Run.steps, List.foldl_cons]
      cases hf : r.fault with
      | some f =>
        have e : r.step c = r := by simp only [Run.step, hf]
        rw [e]
        exact ih r hw h
      | none =>
        have e : (r.step c).sm = (r.sm.call c).sm := by simp only [Run.step, hf]
        apply ih
        · rw [e]; exact call_wellKeyed r.sm c hw
        · rw [e]; exact call_current_key r.sm c hw h
  exact key cs (Run.start sm) (Reachable.wellKeyed sm hr) hcur

theorem GetState_stays_registered_witness :
    Reachable startedMachine ∧ startedMachine.hasState startedMachine.GetState = true ∧
      ((Run.start startedMachine).steps stopTwice).sm.hasState
        ((Run.start startedMachine).steps stopTwice).sm.GetState = true :=
  have hr : Reachable startedMachine :=
    Reachable.call twoStateMachine Call.Startup
      (Reachable.call freshMachine (Call.RegisterStates [some idleState, some stopState])
        (Reachable.new 1 "fsm" 10 freshMachine (by decide)))
  ⟨hr, by decide, GetState_stays_registered startedMachine stopTwice hr (by decide)⟩

end CurrentKey

/-! ## The trace flag -/

section Trace

variable {T : Type} [DecidableEq T]

theorem MoveToState_trace (sm : StateMachine T) (t : Bool) (k : T) :
    ((sm.EnableStateTrace t).MoveToState k).ok = (sm.MoveToState k).ok ∧
      ((sm.EnableStateTrace t).MoveToState k).sm = (sm.MoveToState k).sm.EnableStateTrace t := by
  unfold StateMachine.MoveToState
  by_cases hc : sm.GetState = k
  · have hc2 : (sm.EnableStateTrace t).GetState = k := hc
    simp only [hc, hc2, if_true, and_self]
  · have hc2 : ¬ (sm.EnableStateTrace t).GetState = k := hc
    have hst : (sm.EnableStateTrace t).states = sm.states := rfl
    simp only [hc, hc2, if_false, hst]
    cases mapGet sm.states k with
    | none => exact ⟨rfl, rfl⟩
    | some st => exact ⟨rfl, rfl⟩

theorem RegisterState_trace (sm : StateMachine T) (t : Bool) (s : Option (State T)) :
    ((sm.EnableStateTrace t).RegisterState s).ok = (sm.RegisterState s).ok ∧
      ((sm.EnableStateTrace t).RegisterState s).sm = (sm.RegisterState s).sm.EnableStateTrace t := by
  cases s with
  | none => exact ⟨rfl, rfl⟩
  | some st => exact ⟨rfl, rfl⟩

theorem SetStartingState_trace (sm : StateMachine T) (t : Bool) (k : T) :
    ((sm.EnableStateTrace t).SetStartingState k).ok = (sm.SetStartingState k).ok ∧
      ((sm.EnableStateTrace t).SetStartingState k).sm =
        (sm.SetStartingState k).sm.EnableStateTrace t := by
  have hst : (sm.EnableStateTrace t).states = sm.states := rfl
  unfold StateMachine.SetStartingState
  rw [hst]
  cases mapGet sm.states k with
  | none => exact ⟨rfl, rfl⟩
  | some st => exact ⟨rfl, rfl⟩

theorem SetStoppingState_trace (sm : StateMachine T) (t : Bool) (k : T) :
    ((sm.EnableStateTrace t).SetStoppingState k).ok = (sm.SetStoppingState k).ok ∧
      ((sm.EnableStateTrace t).SetStoppingState k).sm =
        (sm.SetStoppingState k).sm.EnableStateTrace t := by
  have hst : (sm.EnableStateTrace t).states = sm.states := rfl
  unfold StateMachine.SetStoppingState
  rw [hst]
  cases mapGet sm.states k with
  | none => exact ⟨rfl, rfl⟩
  | some st => exact ⟨rfl, rfl⟩

theorem registerEach_trace (ss : List (Option (State T))) (t : Bool) :
    ∀ sm : StateMachine T,
      ((sm.EnableStateTrace t).registerEach ss).ok = (sm.registerEach ss).ok ∧
      ((sm.EnableStateTrace t).registerEach ss).sm =
        (sm.registerEach ss).sm.EnableStateTrace t := by
  induction ss with
  | nil => intro sm; exact ⟨rfl, rfl⟩
  | cons s rest ih =>
    intro sm
    cases s with
    | none => exact ⟨rfl, rfl⟩
    | some st =>
      have h := ih (sm.RegisterState (some st)).sm
      have e := (RegisterState_trace sm t (some st)).2
      simp only [StateMachine.registerEach, RegisterState_trace, e]
      simp only [StateMachine.RegisterState, Bool.true_eq_false, if_false] at h ⊢
      exact h

theorem RegisterStates_trace (sm : StateMachine T) (t : Bool) (ss : List (Option (State T))) :
    ((sm.EnableStateTrace t).RegisterStates ss).ok = (sm.RegisterStates ss).ok ∧
      ((sm.EnableStateTrace t).RegisterStates ss).sm =
        (sm.RegisterStates ss).sm.EnableStateTrace t := by
  obtain ⟨h1, h2⟩ := registerEach_trace ss t sm
  unfold StateMachine.RegisterStates
  by_cases hlen : ss.length ≤ 1
  · simp only [hlen, if_true]
    trivial
  · simp only [hlen, if_false, h1, h2]
    cases hok : (sm.registerEach ss).ok with
    | false => exact ⟨rfl, rfl⟩
    | true =>
      cases hh : ss.head? with
      | none => exact ⟨rfl, rfl⟩
      | some first =>
        cases first with
        | none => exact ⟨rfl, rfl⟩
        | some first =>
          cases hl : ss.getLast? with
          | none => exact ⟨rfl, rfl⟩
          | some last =>
            cases last with
            | none => exact ⟨rfl, rfl⟩
            | some last =>
              refine ⟨rfl, ?_⟩
              simp only [Bool.true_eq_false, if_false]
              rw [(SetStartingState_trace _ t first.Name).2,
                (SetStoppingState_trace _ t last.Name).2]

theorem State.trigger_ignores_trace (s : State T) (m : StateMachine T) (t : Bool) :
    (s.trigger (some (m.EnableStateTrace t))).state = (s.trigger (some m)).state ∧
      (s.trigger (some (m.EnableStateTrace t))).invoked = (s.trigger (some m)).invoked ∧
      (s.trigger (some (m.EnableStateTrace t))).closes = (s.trigger (some m)).closes ∧
      (s.trigger (some (m.EnableStateTrace t))).fault = (s.trigger (some m)).fault := by
  have hstop : (m.EnableStateTrace t).stopping = m.stopping := rfl
  unfold State.trigger
  simp only [hstop]
  split
  · cases s.Action with
    | none => exact ⟨rfl, rfl, rfl, rfl⟩
    | some a =>
      simp only
      split <;> exact ⟨rfl, rfl, rfl, rfl⟩
  · exact ⟨rfl, rfl, rfl, rfl⟩

theorem State.trigger_owner_trace (s : State T) (o : Option (StateMachine T)) (t : Bool) :
    (s.trigger (o.map (fun m => m.EnableStateTrace t))).state = (s.trigger o).state ∧
      (s.trigger (o.map (fun m => m.EnableStateTrace t))).invoked = (s.trigger o).invoked ∧
      (s.trigger (o.map (fun m => m.EnableStateTrace t))).closes = (s.trigger o).closes ∧
      (s.trigger (o.map (fun m => m.EnableStateTrace t))).fault = (s.trigger o).fault := by
  cases o with
  | none => exact ⟨rfl, rfl, rfl, rfl⟩
  | some m => exact State.trigger_ignores_trace s m t

theorem deref_trace (sm : StateMachine T) (t : Bool) (p : Option Nat) :
    (sm.EnableStateTrace t).deref p = (sm.deref p).map (fun m => m.EnableStateTrace t) := by
  cases p with
  | none => rfl
  | some a =>
    have haddr : (sm.EnableStateTrace t).addr = sm.addr := rfl
    by_cases ha : a = sm.addr
    · simp only [StateMachine.deref, haddr, ha, if_true, Option.map_some']
    · simp only [StateMachine.deref, haddr, ha, if_false, Option.map_none']

theorem trigger_trace (sm : StateMachine T) (t : Bool) :
    (sm.EnableStateTrace t).trigger.sm = sm.trigger.sm.EnableStateTrace t ∧
      (sm.EnableStateTrace t).trigger.invoked = sm.trigger.invoked ∧
      (sm.EnableStateTrace t).trigger.fault = sm.trigger.fault := by
  have hst : (sm.EnableStateTrace t).states = sm.states := rfl
  have hcur : (sm.EnableStateTrace t).GetState = sm.GetState := rfl
  have hstopped : (sm.EnableStateTrace t).stopped = sm.stopped := rfl
  cases hs : mapGet sm.states sm.GetState with
  | none =>
    simp only [StateMachine.trigger, hst, hcur, hs]
    trivial
  | some s =>
    obtain ⟨e1, e2, e3, e4⟩ := State.trigger_owner_trace s (sm.deref s.machine) t
    have hd := deref_trace sm t s.machine
    cases hc : (s.trigger (sm.deref s.machine)).closes with
    | true =>
      cases hsp : sm.stopped with
      | true =>
        simp only [StateMachine.trigger, hst, hcur, hstopped, hs, hd, e1, e2, e3, e4, hc, hsp,
          if_true]
        trivial
      | false =>
        simp only [StateMachine.trigger, hst, hcur, hstopped, hs, hd, e1, e2, e3, e4, hc, hsp,
          if_true, Bool.false_eq_true, if_false]
        trivial
    | false =>
      simp only [StateMachine.trigger, hst, hcur, hstopped, hs, hd, e1, e2, e3, e4, hc,
        Bool.false_eq_true, if_false]
      trivial

theorem call_trace (sm : StateMachine T) (t : Bool) (c : Call T) :
    ((sm.EnableStateTrace t).call c).ret = (sm.call c).ret ∧
      ((sm.EnableStateTrace t).call c).invoked = (sm.call c).invoked ∧
      ((sm.EnableStateTrace t).call c).fault = (sm.call c).fault ∧
      ∃ t1, ((sm.EnableStateTrace t).call c).sm = (sm.call c).sm.EnableStateTrace t1 := by
  cases c with
  | EnableStateTrace enable => exact ⟨rfl, rfl, rfl, enable, rfl⟩
  | MoveToState k =>
    obtain ⟨h1, h2⟩ := MoveToState_trace sm t k
    simp only [StateMachine.call, h1, h2]
    exact ⟨trivial, trivial, trivial, t, rfl⟩
  | RegisterState s =>
    obtain ⟨h1, h2⟩ := RegisterState_trace sm t s
    simp only [StateMachine.call, h1, h2]
    exact ⟨trivial, trivial, trivial, t, rfl⟩
  | RegisterStates ss =>
    obtain ⟨h1, h2⟩ := RegisterStates_trace sm t ss
    simp only [StateMachine.call, h1, h2]
    exact ⟨trivial, trivial, trivial, t, rfl⟩
  | SetStartingState k =>
    obtain ⟨h1, h2⟩ := SetStartingState_trace sm t k
    simp only [StateMachine.call, h1, h2]
    exact ⟨trivial, trivial, trivial, t, rfl⟩
  | SetStoppingState k =>
    obtain ⟨h1, h2⟩ := SetStoppingState_trace sm t k
    simp only [StateMachine.call, h1, h2]
    exact ⟨trivial, trivial, trivial, t, rfl⟩
  | Startup =>
    obtain ⟨_, h2⟩ := MoveToState_trace sm t sm.starting
    have hst : (sm.EnableStateTrace t).states = sm.states := rfl
    have hsg : (sm.EnableStateTrace t).starting = sm.starting := rfl
    simp only [StateMachine.call, StateMachine.Startup, hst, hsg]
    by_cases hlen : sm.states.length = 0
    · simp only [hlen, if_true]
      exact ⟨trivial, trivial, trivial, t, rfl⟩
    · simp only [hlen, if_false, h2]
      exact ⟨trivial, trivial, trivial, t, rfl⟩
  | ShutdownEnter =>
    obtain ⟨_, h2⟩ := MoveToState_trace sm t sm.stopping
    have hsg : (sm.EnableStateTrace t).stopping = sm.stopping := rfl
    simp only [StateMachine.call, StateMachine.ShutdownEnter, hsg, h2]
    exact ⟨trivial, trivial, trivial, t, rfl⟩
  | ShutdownLeave =>
    have h1 : (sm.EnableStateTrace t).stopped = sm.stopped := rfl
    have h2 : (sm.EnableStateTrace t).quit = sm.quit := rfl
    simp only [StateMachine.call, StateMachine.ShutdownLeave, h1, h2]
    cases sm.stopped with
    | false => exact ⟨rfl, rfl, rfl, t, rfl⟩
    | true =>
      cases sm.quit with
      | false => exact ⟨rfl, rfl, rfl, t, rfl⟩
      | true => exact ⟨rfl, rfl, rfl, t, rfl⟩
  | Pause => exact ⟨rfl, rfl, rfl, t, rfl⟩
  | Resume => exact ⟨rfl, rfl, rfl, t, rfl⟩
  | SaveState => exact ⟨rfl, rfl, rfl, t, rfl⟩
  | RestoreState =>
    obtain ⟨_, h2⟩ := MoveToState_trace sm t sm.saved
    have hsg : (sm.EnableStateTrace t).saved = sm.saved := rfl
    simp only [StateMachine.call, StateMachine.RestoreState, hsg, h2]
    exact ⟨trivial, trivial, trivial, t, rfl⟩
  | tick =>
    obtain ⟨h1, h2, h3⟩ := trigger_trace sm t
    have hl : (sm.EnableStateTrace t).loops = sm.loops := rfl
    simp only [StateMachine.call, hl]
    by_cases h0 : sm.loops = 0
    · simp only [h0, if_true]
      exact ⟨trivial, trivial, trivial, t, rfl⟩
    · simp only [h0, if_false, h1, h2, h3]
      exact ⟨trivial, trivial, trivial, t, rfl⟩
  | loopQuit =>
    have hl : (sm.EnableStateTrace t).loops = sm.loops := rfl
    have hq : (sm.EnableStateTrace t).quit = sm.quit := rfl
    simp only [StateMachine.call, hl, hq]
    by_cases h0 : sm.loops = 0 ∨ sm.quit = false
    · simp only [h0, if_true]
      exact ⟨trivial, trivial, trivial, t, rfl⟩
    · simp only [h0, if_false]
      exact ⟨trivial, trivial, trivial, t, rfl⟩

theorem steps_trace (cs : List (Call T)) :
    ∀ (r1 r2 : Run T), r2.rets = r1.rets → r2.invoked = r1.invoked → r2.fault = r1.fault →
      (∃ t1, r2.sm = r1.sm.EnableStateTrace t1) →
      (r2.steps cs).rets = (r1.steps cs).rets ∧
      (r2.steps cs).invoked = (r1.steps cs).invoked ∧
      (r2.steps cs).fault = (r1.steps cs).fault ∧
      ∃ t1, (r2.steps cs).sm = (r1.steps cs).sm.EnableStateTrace t1 := by
  induction cs with
  | nil => intro r1 r2 h1 h2 h3 h4; exact ⟨h1, h2, h3, h4⟩
  | cons c rest ih =>
    intro r1 r2 h1 h2 h3 h4
    simp only [Run.steps, List.foldl_cons]
    obtain ⟨t1, ht1⟩ := h4
    cases hf : r1.fault with
    | some f =>
      have hf2 : r2.fault = some f := by rw [h3, hf]
      have e1 : r1.step c = r1 := by simp only [Run.step, hf]
      have e2 : r2.step c = r2 := by simp only [Run.step, hf2]
      rw [e1, e2]
      exact ih r1 r2 h1 h2 h3 ⟨t1, ht1⟩
    | none =>
      have hf2 : r2.fault = none := by rw [h3, hf]
      obtain ⟨c1, c2, c3, t2, c4⟩ := call_trace r1.sm t1 c
      apply ih
      · simp only [Run.step, hf, hf2, h1, ht1, c1]
      · simp only [Run.step, hf, hf2, h2, ht1, c2]
      · simp only [Run.step, hf, hf2, ht1, c3]
      · refine ⟨t2, ?_⟩
        simp only [Run.step, hf, hf2, ht1, c4]

/-- C19: the trace flag gates nothing.  Two machines that differ in the
trace flag only, put through the same calls, return the same values, invoke
the same actions with the same arguments, fail or not alike, and end as the
same machine (current state, tick counters, `stopped`, ...) up to the trace
flag; the same holds for one `trigger`.  And the trigger of a state with an
owner calls the bound action exactly when the interval is 0 or divides the
new tick count: the count modulo 5 plays no part. -/
theorem trace_flag_gates_nothing (sm : StateMachine T) (t : Bool) (cs : List (Call T))
    (s : State T) (m : StateMachine T) :
    ((Run.start (sm.EnableStateTrace t)).steps cs).rets = ((Run.start sm).steps cs).rets ∧
      ((Run.start (sm.EnableStateTrace t)).steps cs).invoked =
        ((Run.start sm).steps cs).invoked ∧
      ((Run.start (sm.EnableStateTrace t)).steps cs).fault = ((Run.start sm).steps cs).fault ∧
      ((Run.start (sm.EnableStateTrace t)).steps cs).sm.EnableStateTrace
          ((Run.start sm).steps cs).sm.trace = ((Run.start sm).steps cs).sm ∧
      (sm.EnableStateTrace t).trigger.sm = sm.trigger.sm.EnableStateTrace t ∧
      (sm.EnableStateTrace t).trigger.invoked = sm.trigger.invoked ∧
      (sm.EnableStateTrace t).trigger.fault = sm.trigger.fault ∧
      (s.trigger (some m)).invoked =
        (match s.Action with
         | some a =>
           if s.Ticks = 0 ∨ (s.tickCnt + 1) % uintSize % s.Ticks = 0 then [(a, s.Args)] else []
         | none => []) := by
  obtain ⟨h1, h2, h3, t1, h4⟩ :=
    steps_trace cs (Run.start sm) (Run.start (sm.EnableStateTrace t)) rfl rfl rfl ⟨t, rfl⟩
  obtain ⟨g1, g2, g3⟩ := trigger_trace sm t
  refine ⟨h1, h2, h3, ?_, g1, g2, g3, ?_⟩
  · rw [h4]
    rfl
  · unfold State.trigger
    simp only
    by_cases hc : s.Ticks = 0 ∨ (s.tickCnt + 1) % uintSize % s.Ticks = 0
    · simp only [hc, if_true]
      cases s.Action with
      | none => rfl
      | some a => simp only; split <;> rfl
    · simp only [hc, if_false]
      cases s.Action <;> rfl

end Trace

/-! ## Closing `stopped` -/

section Stopped

variable {T : Type} [DecidableEq T]

theorem State.trigger_invoked (s : State T) (m : StateMachine T) :
    (s.trigger (some m)).invoked =
      (match s.Action with
       | some a =>
         if s.Ticks = 0 ∨ (s.tickCnt + 1) % uintSize % s.Ticks = 0 then [(a, s.Args)] else []
       | none => []) := by
  unfold State.trigger
  simp only
  by_cases hc : s.Ticks = 0 ∨ (s.tickCnt + 1) % uintSize % s.Ticks = 0
  · simp only [hc, if_true]
    cases s.Action with
    | none => rfl
    | some a => simp only; split <;> rfl
  · simp only [hc, if_false]
    cases s.Action <;> rfl

theorem State.trigger_closes (s : State T) (m : StateMachine T) :
    (s.trigger (some m)).closes = true ↔
      (s.trigger (some m)).invoked ≠ [] ∧ s.Name = m.stopping := by
  unfold State.trigger
  simp only
  by_cases hc : s.Ticks = 0 ∨ (s.tickCnt + 1) % uintSize % s.Ticks = 0
  · simp only [hc, if_true]
    cases s.Action with
    | none => simp
    | some a =>
      simp only
      by_cases hn : s.Name = m.stopping
      · simp [hn]
      · simp [hn]
  · simp only [hc, if_false]
    simp

theorem State.trigger_fault (s : State T) (m : StateMachine T) :
    (s.trigger (some m)).fault = none := by
  unfold State.trigger
  simp only
  split
  · cases s.Action with
    | none => rfl
    | some a => simp only; split <;> rfl
  · rfl

/-- The machine's trigger when the current state `s` is owned by this
machine: it invokes what the state's trigger invokes, `stopped` is closed
afterwards iff it was closed before or the state's trigger reaches the
close, and it panics exactly when the close is reached on a closed
`stopped`. -/
theorem trigger_own (sm : StateMachine T) (s : State T)
    (hs : mapGet sm.states sm.GetState = some s) (hm : s.machine = some sm.addr) :
    sm.trigger.invoked = (s.trigger (some sm)).invoked ∧
      sm.trigger.sm.stopped = (sm.stopped || (s.trigger (some sm)).closes) ∧
      sm.trigger.fault =
        (if (s.trigger (some sm)).closes = true ∧ sm.stopped = true
         then some Fault.closeOfClosedChannel else none) := by
  have hf := State.trigger_fault s sm
  have hd : sm.deref s.machine = some sm := by
    simp only [StateMachine.deref, hm, if_true]
  cases hc : (s.trigger (some sm)).closes with
  | true =>
    cases hsp : sm.stopped with
    | true =>
      simp only [StateMachine.trigger, hs, hd, if_true, hc, hsp]
      trivial
    | false =>
      simp only [StateMachine.trigger, hs, hd, if_true, hc, hsp, Bool.false_eq_true, if_false]
      simp
  | false =>
    simp only [StateMachine.trigger, hs, hd, if_true, hc, Bool.false_eq_true, if_false, hf]
    simp

theorem mapGet_bump (m : List (T × State T)) (k0 k : T) (s0 : State T) (n : Nat)
    (h : mapGet m k0 = some s0) :
    (mapGet (mapSet m k0 { s0 with tickCnt := n }) k).map (fun s => (s.Action, s.Args)) =
      (mapGet m k).map (fun s => (s.Action, s.Args)) := by
  by_cases hk : k = k0
  · subst hk
    rw [mapGet_mapSet_same, h]
    rfl
  · rw [mapGet_mapSet_other _ _ _ _ hk]

theorem trigger_frame (sm : StateMachine T) :
    sm.trigger.sm =
      { sm with states := sm.trigger.sm.states, stopped := sm.trigger.sm.stopped } := by
  cases hs : mapGet sm.states sm.GetState with
  | none => simp only [StateMachine.trigger, hs]
  | some s =>
    have h := trigger_of_some sm s hs
    rw [h]

theorem trigger_static (sm : StateMachine T) (k : T) :
    (mapGet sm.trigger.sm.states k).map (fun s => (s.Action, s.Args)) =
      (mapGet sm.states k).map (fun s => (s.Action, s.Args)) := by
  cases hs : mapGet sm.states sm.GetState with
  | none => simp only [StateMachine.trigger, hs]
  | some s =>
    rw [trigger_of_some sm s hs]
    exact mapGet_bump _ _ _ _ _ hs

/-- A trigger leaves `stopped` as it is, or closes it because the current
state is owned by this machine and its trigger reaches the close. -/
theorem trigger_stopped_cases (sm : StateMachine T) :
    sm.trigger.sm.stopped = sm.stopped ∨
      (sm.stopped = false ∧ sm.trigger.sm.stopped = true ∧
        ∃ s, mapGet sm.states sm.GetState = some s ∧ s.machine = some sm.addr ∧
          (s.trigger (some sm)).closes = true) := by
  cases hs : mapGet sm.states sm.GetState with
  | none => left; simp only [StateMachine.trigger, hs]
  | some s =>
    rcases deref_cases sm s.machine with hd | ⟨hm, _⟩
    · left
      have hc : (s.trigger none).closes = false := State.trigger_nil_owner s
      simp only [StateMachine.trigger, hs, hd, hc, Bool.false_eq_true, if_false]
    · obtain ⟨_, h2, _⟩ := trigger_own sm s hs hm
      cases hsp : sm.stopped with
      | true => left; rw [h2, hsp]; rfl
      | false =>
        cases hc : (s.trigger (some sm)).closes with
        | false => left; rw [h2, hsp, hc]; rfl
        | true =>
          right
          refine ⟨rfl, ?_, s, rfl, hm, hc⟩
          rw [h2, hsp, hc]; rfl

theorem trigger_runsTo (sm : StateMachine T) (hw : sm.WellKeyed) :
    sm.RunsTo sm.trigger.sm sm.trigger.invoked := by
  have hfr := trigger_frame sm
  have hstop : sm.trigger.sm.stopping = sm.stopping := by rw [hfr]
  have hquit : sm.trigger.sm.quit = sm.quit := by rw [hfr]
  have htick : sm.trigger.sm.ticker = sm.ticker := by rw [hfr]
  refine ⟨hstop, trigger_static sm, ?_, ?_, ?_, ?_⟩
  · intro h
    rcases trigger_stopped_cases sm with e | ⟨e, _⟩
    · rw [e]; exact h
    · rw [h] at e; cases e
  · intro h0 h1
    rcases trigger_stopped_cases sm with e | ⟨_, _, s, hs, hm, hc⟩
    · rw [e, h0] at h1; cases h1
    · obtain ⟨hinv, _, _⟩ := trigger_own sm s hs hm
      obtain ⟨hne, hname⟩ := (State.trigger_closes s sm).mp hc
      have hcur : sm.GetState = sm.stopping := by
        rw [← hw _ _ hs]; exact hname
      have hform := State.trigger_invoked s sm
      cases hact : s.Action with
      | none =>
        rw [hact] at hform
        exact absurd hform hne
      | some a =>
        rw [hact] at hform
        simp only at hform
        by_cases hfire : s.Ticks = 0 ∨ (s.tickCnt + 1) % uintSize % s.Ticks = 0
        · rw [if_pos hfire] at hform
          refine ⟨s, a, ?_, hact, ?_⟩
          · rw [← hcur]; exact hs
          · rw [hinv, hform]; exact List.mem_singleton.mpr rfl
        · rw [if_neg hfire] at hform
          exact absurd hform hne
  · intro h; left; rw [← hquit]; exact h
  · intro h; left; rw [← htick]; exact h

theorem runsTo_of_same (sm sm1 : StateMachine T) (h1 : sm1.stopping = sm.stopping)
    (h2 : sm1.states = sm.states) (h3 : sm1.stopped = sm.stopped) (h4 : sm1.quit = sm.quit)
    (h5 : sm1.ticker = sm.ticker) : sm.RunsTo sm1 [] := by
  refine ⟨h1, fun k => by rw [h2], ?_, ?_, ?_, ?_⟩
  · intro e; rw [h3]; exact e
  · intro e0 e1; rw [h3, e0] at e1; cases e1
  · intro e; left; rw [← h4]; exact e
  · intro e; left; rw [← h5]; exact e

theorem runsTo_of_move (sm sm1 : StateMachine T)
    (h : sm1 = { sm with current := sm1.current }) : sm.RunsTo sm1 [] :=
  runsTo_of_same sm sm1 (by rw [h]) (by rw [h]) (by rw [h]) (by rw [h]) (by rw [h])

theorem call_runsTo (sm : StateMachine T) (c : Call T) (hc : c.running = true)
    (hw : sm.WellKeyed) : sm.RunsTo (sm.call c).sm (sm.call c).invoked := by
  cases c with
  | EnableStateTrace enable => cases hc
  | MoveToState k => exact runsTo_of_move sm _ (MoveToState_frame sm k)
  | RegisterState s => cases hc
  | RegisterStates ss => cases hc
  | SetStartingState k => cases hc
  | SetStoppingState k => cases hc
  | Startup => cases hc
  | ShutdownEnter => exact runsTo_of_move sm _ (MoveToState_frame sm sm.stopping)
  | ShutdownLeave =>
    cases hsp : sm.stopped with
    | false =>
      simp only [StateMachine.call, StateMachine.ShutdownLeave, hsp, Bool.false_eq_true,
        if_false]
      exact runsTo_of_move sm sm rfl
    | true =>
      cases hq : sm.quit with
      | true =>
        simp only [StateMachine.call, StateMachine.ShutdownLeave, hsp, hq, if_true]
        exact runsTo_of_move sm sm rfl
      | false =>
        simp only [StateMachine.call, StateMachine.ShutdownLeave, hsp, hq, if_true,
          Bool.false_eq_true, if_false]
        refine ⟨rfl, fun k => rfl, fun _ => rfl, ?_, fun _ => Or.inr hsp, fun _ => Or.inr hsp⟩
        intro e; rw [hsp] at e; cases e
  | Pause => cases hc
  | Resume => cases hc
  | SaveState => cases hc
  | RestoreState => cases hc
  | tick =>
    simp only [StateMachine.call]
    by_cases h0 : sm.loops = 0
    · simp only [h0, if_true]
      exact runsTo_of_move sm sm rfl
    · simp only [h0, if_false]
      exact trigger_runsTo sm hw
  | loopQuit =>
    simp only [StateMachine.call]
    by_cases h0 : sm.loops = 0 ∨ sm.quit = false
    · simp only [h0, if_true]
      exact runsTo_of_move sm sm rfl
    · simp only [h0, if_false]
      exact runsTo_of_same sm _ rfl rfl rfl rfl rfl

theorem static_transfer (m m1 : List (T × State T)) (k : T) (s : State T)
    (h : (mapGet m1 k).map (fun s => (s.Action, s.Args)) =
      (mapGet m k).map (fun s => (s.Action, s.Args)))
    (hs : mapGet m k = some s) :
    ∃ s1, mapGet m1 k = some s1 ∧ s1.Action = s.Action ∧ s1.Args = s.Args := by
  rw [hs] at h
  cases h1 : mapGet m1 k with
  | none => rw [h1] at h; cases h
  | some s1 =>
    rw [h1] at h
    simp only [Option.map_some', Option.some.injEq, Prod.mk.injEq] at h
    exact ⟨s1, rfl, h.1, h.2⟩

theorem Run.step_of_running (r : Run T) (c : Call T) (hf : r.fault = none) :
    (r.step c).sm = (r.sm.call c).sm ∧
      (r.step c).invoked = r.invoked ++ (r.sm.call c).invoked := by
  simp only [Run.step, hf, and_self]

theorem steps_stop_sound (cs : List (Call T)) :
    ∀ r : Run T, r.sm.WellKeyed →
      (r.sm.stopped = true → r.stoppingActionRan) →
      (r.sm.quit = true → r.sm.stopped = true) →
      (r.sm.ticker = false → r.sm.stopped = true) →
      cs.all (fun c => c.running) = true →
      ((r.steps cs).sm.stopped = true → (r.steps cs).stoppingActionRan) ∧
      ((r.steps cs).sm.quit = true → (r.steps cs).sm.stopped = true) ∧
      ((r.steps cs).sm.ticker = false → (r.steps cs).sm.stopped = true) := by
  induction cs with
  | nil => intro r _ h1 h2 h3 _; exact ⟨h1, h2, h3⟩
  | cons c rest ih =>
    intro r hw h1 h2 h3 hcs
    simp only [List.all_cons, Bool.and_eq_true] at hcs
    simp only [Run.steps, List.foldl_cons]
    cases hf : r.fault with
    | some f =>
      have e : r.step c = r := by simp only [Run.step, hf]
      rw [e]
      exact ih r hw h1 h2 h3 hcs.2
    | none =>
      obtain ⟨esm, einv⟩ := Run.step_of_running r c hf
      obtain ⟨e1, e2, e3, e4, e5, e6⟩ := call_runsTo r.sm c hcs.1 hw
      have hw1 : (r.step c).sm.WellKeyed := by rw [esm]; exact call_wellKeyed r.sm c hw
      refine ih (r.step c) hw1 ?_ ?_ ?_ hcs.2
      · intro hst
        rw [esm] at hst
        have hold : ∃ s a, mapGet r.sm.states r.sm.stopping = some s ∧ s.Action = some a ∧
            (a, s.Args) ∈ (r.step c).invoked := by
          cases hsp : r.sm.stopped with
          | true =>
            obtain ⟨s, a, g1, _, g3, g4⟩ := h1 hsp
            exact ⟨s, a, g1, g3, by rw [einv]; exact List.mem_append_left _ g4⟩
          | false =>
            obtain ⟨s, a, g1, g3, g4⟩ := e4 hsp hst
            exact ⟨s, a, g1, g3, by rw [einv]; exact List.mem_append_right _ g4⟩
        obtain ⟨s, a, g1, g3, g4⟩ := hold
        obtain ⟨s1, k1, k2, k3⟩ := static_transfer _ _ _ s (e2 r.sm.stopping) g1
        have hkey : mapGet (r.step c).sm.states (r.step c).sm.stopping = some s1 := by
          rw [esm, e1]; exact k1
        exact ⟨s1, a, hkey, hw1 _ _ hkey, by rw [k2]; exact g3, by rw [k3]; exact g4⟩
      · intro hq
        rw [esm] at hq ⊢
        rcases e5 hq with g | g
        · exact e3 (h2 g)
        · exact e3 g
      · intro ht
        rw [esm] at ht ⊢
        rcases e6 ht with g | g
        · exact e3 (h3 g)
        · exact e3 g

theorem steps_stay_open (cs : List (Call T)) :
    ∀ r : Run T, r.sm.WellKeyed → r.sm.stopped = false →
      (mapGet r.sm.states r.sm.stopping).bind (fun st => st.Action) = none →
      cs.all (fun c => c.running) = true →
      (r.steps cs).sm.stopped = false := by
  induction cs with
  | nil => intro r _ h _ _; exact h
  | cons c rest ih =>
    intro r hw h0 hna hcs
    simp only [List.all_cons, Bool.and_eq_true] at hcs
    simp only [Run.steps, List.foldl_cons]
    cases hf : r.fault with
    | some f =>
      have e : r.step c = r := by simp only [Run.step, hf]
      rw [e]
      exact ih r hw h0 hna hcs.2
    | none =>
      obtain ⟨esm, _⟩ := Run.step_of_running r c hf
      obtain ⟨e1, e2, _, e4, _, _⟩ := call_runsTo r.sm c hcs.1 hw
      have hw1 : (r.step c).sm.WellKeyed := by rw [esm]; exact call_wellKeyed r.sm c hw
      refine ih (r.step c) hw1 ?_ ?_ hcs.2
      · rw [esm]
        cases hst : (r.sm.call c).sm.stopped with
        | false => rfl
        | true =>
          obtain ⟨s, a, g1, g3, _⟩ := e4 h0 hst
          rw [g1] at hna
          simp only [Option.some_bind] at hna
          rw [g3] at hna
          cases hna
      · rw [esm, e1]
        cases hnew : mapGet (r.sm.call c).sm.states r.sm.stopping with
        | none => rfl
        | some s1 =>
          obtain ⟨s, k1, k2, _⟩ :=
            static_transfer _ _ _ s1 (e2 r.sm.stopping).symm hnew
          rw [k1] at hna
          simp only [Option.some_bind] at hna ⊢
          rw [← k2]; exact hna

/-- C11: start from a machine produced by `NewStateMachine` and calls on
which `stopped` and `quit` are open and the ticker runs, and let loop steps,
`MoveToState` calls and the two halves of `Shutdown` happen in any order.
Whenever `stopped` is closed, the action of the state under the stopping key
has been invoked; `quit` is closed and the ticker stopped only when
`stopped` is closed; and while `stopped` is open the second half of
`Shutdown` (close `quit`, stop the ticker) cannot run. -/
theorem stopped_only_after_stopping_action [Inhabited T] (sm : StateMachine T)
    (cs : List (Call T)) (hr : Reachable sm) (hs : sm.stopped = false) (hq : sm.quit = false)
    (ht : sm.ticker = true) (hcs : cs.all (fun c => c.running) = true) :
    (((Run.start sm).steps cs).sm.stopped = true → ((Run.start sm).steps cs).stoppingActionRan) ∧
      (((Run.start sm).steps cs).sm.quit = true → ((Run.start sm).steps cs).sm.stopped = true) ∧
      (((Run.start sm).steps cs).sm.ticker = false →
        ((Run.start sm).steps cs).sm.stopped = true) ∧
      (((Run.start sm).steps cs).sm.stopped = false →
        ((Run.start sm).steps cs).sm.ShutdownLeave = none) := by
  have h := steps_stop_sound cs (Run.start sm) (Reachable.wellKeyed sm hr)
    (fun e => by rw [show (Run.start sm).sm.stopped = sm.stopped from rfl, hs] at e; cases e)
    (fun e => by rw [show (Run.start sm).sm.quit = sm.quit from rfl, hq] at e; cases e)
    (fun e => by rw [show (Run.start sm).sm.ticker = sm.ticker from rfl, ht] at e; cases e)
    hcs
  refine ⟨h.1, h.2.1, h.2.2, ?_⟩
  intro e
  simp only [StateMachine.ShutdownLeave, e, Bool.false_eq_true, if_false]

theorem stopped_only_after_stopping_action_witness :
    Reachable startedMachine ∧ startedMachine.stopped = false ∧ startedMachine.quit = false ∧
      startedMachine.ticker = true ∧ (stopTwice.take 3).all (fun c => c.running) = true ∧
      ((Run.start startedMachine).steps (stopTwice.take 3)).sm.stopped = true ∧
      ((Run.start startedMachine).steps (stopTwice.take 3)).stoppingActionRan :=
  have hr : Reachable startedMachine :=
    Reachable.call twoStateMachine Call.Startup
      (Reachable.call freshMachine (Call.RegisterStates [some idleState, some stopState])
        (Reachable.new 1 "fsm" 10 freshMachine (by decide)))
  ⟨hr, by decide, by decide, by decide, by decide, by decide,
    (stopped_only_after_stopping_action startedMachine (stopTwice.take 3) hr (by decide)
      (by decide) (by decide) (by decide)).1 (by decide)⟩

/-- C18: the trigger of a state with owner `m` reaches the close of
`stopped` exactly when it has invoked the bound action on that call (an
action is bound and the interval is 0 or divides the new tick count) and the
state's name is the owner's stopping key.  In the machine's trigger on a
current state owned by the machine, `stopped` is closed afterwards iff it
was closed before or that close is reached, and reaching it on a closed
`stopped` is the panic, the action having been invoked.  In particular, on
a machine produced by `NewStateMachine` and calls with `stopped` open and no
action bound to the state under the stopping key, no sequence of loop
steps, moves and `Shutdown` halves closes `stopped`. -/
theorem trigger_closes_stopped_iff [Inhabited T] (s : State T) (m : StateMachine T)
    (sm2 : StateMachine T) (s2 : State T) (sm : StateMachine T) (cs : List (Call T))
    (hcur2 : mapGet sm2.states sm2.GetState = some s2) (hown2 : s2.machine = some sm2.addr)
    (hr : Reachable sm) (hs : sm.stopped = false)
    (hna : (mapGet sm.states sm.stopping).bind (fun st => st.Action) = none)
    (hcs : cs.all (fun c => c.running) = true) :
    ((s.trigger (some m)).closes = true ↔
        (s.trigger (some m)).invoked ≠ [] ∧ s.Name = m.stopping) ∧
      (s.trigger (some m)).invoked =
        (match s.Action with
         | some a =>
           if s.Ticks = 0 ∨ (s.tickCnt + 1) % uintSize % s.Ticks = 0 then [(a, s.Args)] else []
         | none => []) ∧
      sm2.trigger.invoked = (s2.trigger (some sm2)).invoked ∧
      sm2.trigger.sm.stopped = (sm2.stopped || (s2.trigger (some sm2)).closes) ∧
      sm2.trigger.fault =
        (if (s2.trigger (some sm2)).closes = true ∧ sm2.stopped = true
         then some Fault.closeOfClosedChannel else none) ∧
      ((Run.start sm).steps cs).sm.stopped = false := by
  obtain ⟨g1, g2, g3⟩ := trigger_own sm2 s2 hcur2 hown2
  exact ⟨State.trigger_closes s m, State.trigger_invoked s m, g1, g2, g3,
    steps_stay_open cs (Run.start sm) (Reachable.wellKeyed sm hr) hs hna hcs⟩

theorem trigger_closes_stopped_iff_witness :
    mapGet stopCurrentMachine.states stopCurrentMachine.GetState =
        some { stopState with machine := some 1 } ∧
      ({ stopState with machine := some 1 } : State String).machine =
        some stopCurrentMachine.addr ∧
      Reachable quietStopMachine ∧ quietStopMachine.stopped = false ∧
      (mapGet quietStopMachine.states quietStopMachine.stopping).bind (fun st => st.Action) =
        none ∧
      tickMoveTick.all (fun c => c.running) = true ∧
      stopCurrentMachine.trigger.sm.stopped =
        (stopCurrentMachine.stopped ||
          (({ stopState with machine := some 1 } : State String).trigger
            (some stopCurrentMachine)).closes) ∧
      ((Run.start quietStopMachine).steps tickMoveTick).sm.stopped = false :=
  have hr : Reachable quietStopMachine :=
    Reachable.call _ Call.Startup
      (Reachable.call freshMachine (Call.RegisterStates [some idleState, some quietState])
        (Reachable.new 1 "fsm" 10 freshMachine (by decide)))
  have h := trigger_closes_stopped_iff idleState freshMachine stopCurrentMachine
    { stopState with machine := some 1 } quietStopMachine tickMoveTick (by decide) (by decide)
    hr (by decide) (by decide) (by decide)
  ⟨by decide, by decide, hr, by decide, by decide, by decide, h.2.2.2.1, h.2.2.2.2.2⟩

end Stopped

/-! ## Entries are stored under their name and owned by the machine -/

section Owner

variable {T : Type} [DecidableEq T]

theorem bound_of_same (sm sm1 : StateMachine T) (hs : sm1.states = sm.states)
    (ha : sm1.addr = sm.addr) (hb : sm.Bound) : sm1.Bound := by
  intro k s h
  rw [hs] at h
  rw [ha]
  exact hb k s h

theorem bound_mapSet (sm : StateMachine T) (k : T) (v : State T) (hb : sm.Bound)
    (hv : v.machine = some sm.addr) :
    ∀ j s, mapGet (mapSet sm.states k v) j = some s → s.machine = some sm.addr := by
  intro j s h
  by_cases hj : j = k
  · subst hj
    rw [mapGet_mapSet_same] at h
    cases h
    exact hv
  · rw [mapGet_mapSet_other _ _ _ _ hj] at h
    exact hb j s h

theorem RegisterState_bound (sm : StateMachine T) (s : Option (State T)) (hb : sm.Bound) :
    (sm.RegisterState s).sm.Bound ∧ (sm.RegisterState s).sm.addr = sm.addr := by
  cases s with
  | none => exact ⟨hb, rfl⟩
  | some st =>
    exact ⟨bound_mapSet sm _ { st with tickCnt := 0, machine := some sm.addr } hb rfl, rfl⟩

theorem registerEach_bound (ss : List (Option (State T))) :
    ∀ sm : StateMachine T, sm.Bound →
      (sm.registerEach ss).sm.Bound ∧ (sm.registerEach ss).sm.addr = sm.addr := by
  induction ss with
  | nil => intro sm hb; exact ⟨hb, rfl⟩
  | cons s rest ih =>
    intro sm hb
    obtain ⟨h1, h2⟩ := RegisterState_bound sm s hb
    cases s with
    | none => exact ⟨hb, rfl⟩
    | some st =>
      obtain ⟨g1, g2⟩ := ih _ h1
      simp only [StateMachine.registerEach, StateMachine.RegisterState, Bool.true_eq_false,
        if_false] at g1 g2 ⊢
      exact ⟨g1, g2⟩

theorem RegisterStates_addr (sm : StateMachine T) (ss : List (Option (State T))) :
    (sm.RegisterStates ss).sm.addr = sm.addr := by
  have hfr : (sm.registerEach ss).sm.addr = sm.addr := by
    rw [registerEach_frame ss sm]
  have hstart : ∀ (m : StateMachine T) (k : T), (m.SetStartingState k).sm.addr = m.addr := by
    intro m k
    unfold StateMachine.SetStartingState
    split <;> rfl
  have hstop : ∀ (m : StateMachine T) (k : T), (m.SetStoppingState k).sm.addr = m.addr := by
    intro m k
    unfold StateMachine.SetStoppingState
    split <;> rfl
  unfold StateMachine.RegisterStates
  by_cases hlen : ss.length ≤ 1
  · simp only [hlen, if_true]
  · simp only [hlen, if_false]
    cases hok : (sm.registerEach ss).ok with
    | false => simp only [if_true]; exact hfr
    | true =>
      simp only [Bool.true_eq_false, if_false]
      split
      · simp only [hstop, hstart, hfr]
      · exact hfr

theorem RegisterStates_bound (sm : StateMachine T) (ss : List (Option (State T)))
    (hb : sm.Bound) : (sm.RegisterStates ss).sm.Bound := by
  have ha := RegisterStates_addr sm ss
  have hst := RegisterStates_states sm ss
  by_cases hlen : ss.length ≤ 1
  · rw [if_pos hlen] at hst
    exact bound_of_same sm _ hst ha hb
  · rw [if_neg hlen] at hst
    obtain ⟨g1, g2⟩ := registerEach_bound ss sm hb
    exact bound_of_same _ _ hst (by rw [ha, g2]) g1

theorem bound_of_move (sm sm1 : StateMachine T)
    (h : sm1 = { sm with current := sm1.current }) (hb : sm.Bound) : sm1.Bound :=
  bound_of_same sm sm1 (by rw [h]) (by rw [h]) hb

theorem trigger_bound (sm : StateMachine T) (hb : sm.Bound) : sm.trigger.sm.Bound := by
  cases hs : mapGet sm.states sm.GetState with
  | none =>
    have e : sm.trigger.sm = sm := by simp only [StateMachine.trigger, hs]
    rw [e]; exact hb
  | some s =>
    have h := trigger_of_some sm s hs
    have ha : sm.trigger.sm.addr = sm.addr := by rw [h]
    have hst : sm.trigger.sm.states =
        mapSet sm.states sm.GetState { s with tickCnt := (s.tickCnt + 1) % uintSize } := by
      rw [h]
    intro k t ht
    rw [hst] at ht
    rw [ha]
    exact bound_mapSet sm _ { s with tickCnt := (s.tickCnt + 1) % uintSize } hb
      (hb sm.GetState s hs) k t ht

theorem call_bound (sm : StateMachine T) (c : Call T) (hb : sm.Bound) :
    (sm.call c).sm.Bound := by
  cases c with
  | EnableStateTrace enable => exact hb
  | MoveToState k => exact bound_of_move sm _ (MoveToState_frame sm k) hb
  | RegisterState s => exact (RegisterState_bound sm s hb).1
  | RegisterStates ss => exact RegisterStates_bound sm ss hb
  | SetStartingState k =>
    simp only [StateMachine.call, StateMachine.SetStartingState]
    split <;> exact hb
  | SetStoppingState k =>
    simp only [StateMachine.call, StateMachine.SetStoppingState]
    split <;> exact hb
  | Startup =>
    simp only [StateMachine.call, StateMachine.Startup]
    split
    · exact hb
    · have ha : (sm.MoveToState sm.starting).sm.addr = sm.addr := by
        rw [MoveToState_frame sm sm.starting]
      exact bound_of_same sm _ (MoveToState_states sm sm.starting) ha hb
  | ShutdownEnter => exact bound_of_move sm _ (MoveToState_frame sm sm.stopping) hb
  | ShutdownLeave =>
    cases hsp : sm.stopped with
    | false =>
      simp only [StateMachine.call, StateMachine.ShutdownLeave, hsp, Bool.false_eq_true,
        if_false]
      exact hb
    | true =>
      cases hq : sm.quit with
      | true =>
        simp only [StateMachine.call, StateMachine.ShutdownLeave, hsp, hq, if_true]
        exact hb
      | false =>
        simp only [StateMachine.call, StateMachine.ShutdownLeave, hsp, hq, if_true,
          Bool.false_eq_true, if_false]
        exact hb
  | Pause => exact hb
  | Resume => exact hb
  | SaveState => exact hb
  | RestoreState => exact bound_of_move sm _ (MoveToState_frame sm sm.saved) hb
  | tick =>
    simp only [StateMachine.call]
    split
    · exact hb
    · exact trigger_bound sm hb
  | loopQuit =>
    simp only [StateMachine.call]
    split <;> exact hb

theorem Reachable.bound [Inhabited T] (sm : StateMachine T) (h : Reachable sm) : sm.Bound := by
  induction h with
  | new addr name precision sm hnew =>
    intro k s hs
    unfold NewStateMachine at hnew
    split at hnew
    · cases hnew
    · cases hnew
      simp [mapGet] at hs
  | call sm c _ ih => exact call_bound sm c ih

end Owner

/-! ## Several machines -/

section Worlds

variable {T : Type} [DecidableEq T]

theorem mapGet_map (m : List (T × State T)) (g : State T → State T) (k : T) :
    mapGet (m.map (fun e => (e.1, g e.2))) k = (mapGet m k).map g := by
  induction m with
  | nil => rfl
  | cons p m ih =>
    obtain ⟨k1, v⟩ := p
    by_cases h : k1 = k
    · simp [mapGet, h]
    · simp [mapGet, h, ih]

theorem wellKeyed_map (m : StateMachine T) (g : State T → State T)
    (hg : ∀ s, (g s).Name = s.Name) (hw : m.WellKeyed) :
    ({ m with states := m.states.map (fun e => (e.1, g e.2)) } : StateMachine T).WellKeyed := by
  intro k s h
  simp only [mapGet_map] at h
  cases h0 : mapGet m.states k with
  | none => rw [h0] at h; cases h
  | some s0 =>
    rw [h0] at h
    simp only [Option.map_some', Option.some.injEq] at h
    rw [← h, hg]
    exact hw k s0 h0

theorem bound_map (m : StateMachine T) (g : State T → State T)
    (hg : ∀ s, (g s).machine = s.machine) (hb : m.Bound) :
    ({ m with states := m.states.map (fun e => (e.1, g e.2)) } : StateMachine T).Bound := by
  intro k s h
  simp only [mapGet_map] at h
  cases h0 : mapGet m.states k with
  | none => rw [h0] at h; cases h
  | some s0 =>
    rw [h0] at h
    simp only [Option.map_some', Option.some.injEq] at h
    rw [← h, hg]
    exact hb k s0 h0

theorem State.seesRegister_name (s : State T) (p a : Nat) :
    (s.seesRegister p a).Name = s.Name := by
  unfold State.seesRegister
  split <;> rfl

theorem State.seesTick_name (s : State T) (p n : Nat) :
    (s.seesTick p n).Name = s.Name ∧ (s.seesTick p n).machine = s.machine := by
  unfold State.seesTick
  split <;> exact ⟨rfl, rfl⟩

theorem seesRegister_wellKeyed (m : StateMachine T) (p a : Nat) (hw : m.WellKeyed) :
    (m.seesRegister p a).WellKeyed :=
  wellKeyed_map m (fun s => s.seesRegister p a) (fun s => State.seesRegister_name s p a) hw

theorem seesRegisters_wellKeyed (sts : List (State T)) (a : Nat) :
    ∀ m : StateMachine T, m.WellKeyed →
      (sts.foldl (fun o1 st => o1.seesRegister st.ptr a) m).WellKeyed := by
  induction sts with
  | nil => intro m hw; exact hw
  | cons st rest ih =>
    intro m hw
    exact ih _ (seesRegister_wellKeyed m st.ptr a hw)

theorem seesTick_wellKeyed (m : StateMachine T) (p n : Nat) (hw : m.WellKeyed) :
    (m.seesTick p n).WellKeyed :=
  wellKeyed_map m (fun s => s.seesTick p n) (fun s => (State.seesTick_name s p n).1) hw

theorem seesTick_bound (m : StateMachine T) (p n : Nat) (hb : m.Bound) :
    (m.seesTick p n).Bound :=
  bound_map m (fun s => s.seesTick p n) (fun s => (State.seesTick_name s p n).2) hb

theorem machineAt_mem (w : World T) (a : Nat) (m : StateMachine T)
    (h : w.machineAt a = some m) : m ∈ w.machines ∧ m.addr = a := by
  unfold World.machineAt at h
  refine ⟨List.mem_of_find?_eq_some h, ?_⟩
  have := List.find?_some h
  simpa using this

theorem mem_update (w : World T) (a : Nat) (m1 : StateMachine T)
    (g : StateMachine T → StateMachine T) (m2 : StateMachine T)
    (h : m2 ∈ (w.update a m1 g).machines) :
    m2 = m1 ∨ ∃ o, o ∈ w.machines ∧ o.addr ≠ a ∧ m2 = g o := by
  simp only [World.update, List.mem_map] at h
  obtain ⟨o, ho, e⟩ := h
  by_cases ha : o.addr = a
  · left; rw [← e, if_pos ha]
  · right; exact ⟨o, ho, ha, by rw [← e, if_neg ha]⟩

theorem mem_close (w : World T) (b : Nat) (m2 : StateMachine T)
    (h : m2 ∈ (w.close b).machines) :
    ∃ o, o ∈ w.machines ∧ m2.states = o.states ∧ m2.addr = o.addr := by
  simp only [World.close, List.mem_map] at h
  obtain ⟨o, ho, e⟩ := h
  refine ⟨o, ho, ?_, ?_⟩
  · rw [← e]; split <;> rfl
  · rw [← e]; split <;> rfl

theorem world_update_inv (P : StateMachine T → Prop) (w : World T) (a : Nat)
    (m1 : StateMachine T) (g : StateMachine T → StateMachine T) (h1 : P m1)
    (hg : ∀ o, o ∈ w.machines → o.addr ≠ a → P (g o)) :
    ∀ m2, m2 ∈ (w.update a m1 g).machines → P m2 := by
  intro m2 hm2
  rcases mem_update w a m1 g m2 hm2 with e | ⟨o, ho, hne, e⟩
  · rw [e]; exact h1
  · rw [e]; exact hg o ho hne

/-- The world a trigger leaves: the one it found (no machine at `a`, or no
current state), or the one with the counter of the current state moved in
every binding of it, with or without some machine's `stopped` closed. -/
theorem world_trigger_shape (w : World T) (a : Nat) :
    (w.trigger a).w = w ∨
      ∃ m s n, w.machineAt a = some m ∧ mapGet m.states m.GetState = some s ∧
        ((w.trigger a).w = w.update a (m.ticked s) (fun o => o.seesTick s.ptr n) ∨
          ∃ b, (w.trigger a).w =
            (w.update a (m.ticked s) (fun o => o.seesTick s.ptr n)).close b) := by
  cases hm : w.machineAt a with
  | none => left; simp only [World.trigger, hm]
  | some m =>
    cases hs : mapGet m.states m.GetState with
    | none => left; simp only [World.trigger, hm, hs]
    | some s =>
      right
      refine ⟨m, s, (s.tickCnt + 1) % uintSize, rfl, hs, ?_⟩
      simp only [World.trigger, hm, hs, State.trigger_state, StateMachine.ticked]
      cases hc : (s.trigger (w.deref s.machine)).closes with
      | false => left; simp only [Bool.false_eq_true, if_false]
      | true =>
        simp only [if_true]
        cases hd : w.deref s.machine with
        | none => left; rfl
        | some o =>
          simp only
          cases hst : o.stopped with
          | true => left; simp only [if_true]
          | false => right; exact ⟨o.addr, by simp only [Bool.false_eq_true, if_false]⟩

theorem world_trigger_inv (P : StateMachine T → Prop) (w : World T) (a : Nat)
    (hsame : ∀ m m1 : StateMachine T, m1.states = m.states → m1.addr = m.addr → P m → P m1)
    (htick : ∀ (o : StateMachine T) (p n : Nat), P o → P (o.seesTick p n))
    (hm1 : ∀ (m : StateMachine T) (s : State T), P m → mapGet m.states m.GetState = some s →
      P (m.ticked s))
    (h : ∀ m, m ∈ w.machines → P m) :
    ∀ m2, m2 ∈ (w.trigger a).w.machines → P m2 := by
  rcases world_trigger_shape w a with e | ⟨m, s, n, hm, hs, e⟩
  · rw [e]; exact h
  · have hmem := (machineAt_mem w a m hm).1
    have hw1 := world_update_inv P w a (m.ticked s) (fun o => o.seesTick s.ptr n)
      (hm1 m s (h m hmem) hs) (fun o ho _ => htick o s.ptr n (h o ho))
    rcases e with e | ⟨b, e⟩
    · rw [e]; exact hw1
    · rw [e]
      intro m2 hm2
      obtain ⟨o, ho, e1, e2⟩ := mem_close _ b m2 hm2
      exact hsame o m2 e1 e2 (hw1 o ho)

theorem wellKeyed_tick (m : StateMachine T) (s : State T) (hw : m.WellKeyed)
    (hs : mapGet m.states m.GetState = some s) : (m.ticked s).WellKeyed := by
  have hn : s.Name = m.GetState := hw _ _ hs
  intro k t ht
  refine wellKeyed_mapSet m _ { s with tickCnt := (s.tickCnt + 1) % uintSize } hw ?_ k t ht
  simp only [hn, StateMachine.ticked]

theorem bound_tick (m : StateMachine T) (s : State T) (hb : m.Bound)
    (hs : mapGet m.states m.GetState = some s) : (m.ticked s).Bound :=
  bound_mapSet m _ { s with tickCnt := (s.tickCnt + 1) % uintSize } hb (hb m.GetState s hs)

theorem world_call_wellKeyed (w : World T) (a : Nat) (c : Call T)
    (h : ∀ m, m ∈ w.machines → m.WellKeyed) :
    ∀ m2, m2 ∈ (w.call a c).w.machines → m2.WellKeyed := by
  have htrig : ∀ m2, m2 ∈ (w.trigger a).w.machines → m2.WellKeyed :=
    world_trigger_inv StateMachine.WellKeyed w a
      (fun m m1 e _ hw => wellKeyed_of_states m m1 e hw)
      (fun o p n hw => seesTick_wellKeyed o p n hw)
      (fun m s hw hs => wellKeyed_tick m s hw hs) h
  have hlift : ∀ c1 : Call T, ∀ m, w.machineAt a = some m →
      ∀ m2, m2 ∈ (w.update a (m.call c1).sm (fun o => o)).machines → m2.WellKeyed := by
    intro c1 m hm
    exact world_update_inv StateMachine.WellKeyed w a _ _
      (call_wellKeyed m c1 (h m (machineAt_mem w a m hm).1)) (fun o ho _ => h o ho)
  cases hm : w.machineAt a with
  | none =>
    have e : (w.call a c).w = w := by
      cases c <;> simp only [World.call, World.RegisterState, World.RegisterStates, hm]
    rw [e]; exact h
  | some m =>
    have hmw := h m (machineAt_mem w a m hm).1
    cases c with
    | RegisterState s =>
      cases s with
      | none =>
        simp only [World.call, World.RegisterState, hm]
        exact world_update_inv StateMachine.WellKeyed w a _ _
          (RegisterState_wellKeyed m none hmw) (fun o ho _ => h o ho)
      | some st =>
        simp only [World.call, World.RegisterState, hm]
        exact world_update_inv StateMachine.WellKeyed w a _ _
          (RegisterState_wellKeyed m (some st) hmw)
          (fun o ho _ => seesRegister_wellKeyed o st.ptr a (h o ho))
    | RegisterStates ss =>
      simp only [World.call, World.RegisterStates, hm]
      exact world_update_inv StateMachine.WellKeyed w a _ _
        (RegisterStates_wellKeyed m ss hmw)
        (fun o ho _ => seesRegisters_wellKeyed (registeredOf ss) a o (h o ho))
    | tick =>
      simp only [World.call, hm]
      split
      · exact h
      · exact htrig
    | EnableStateTrace enable => simp only [World.call, hm]; exact hlift _ m hm
    | MoveToState k => simp only [World.call, hm]; exact hlift _ m hm
    | SetStartingState k => simp only [World.call, hm]; exact hlift _ m hm
    | SetStoppingState k => simp only [World.call, hm]; exact hlift _ m hm
    | Startup => simp only [World.call, hm]; exact hlift _ m hm
    | ShutdownEnter => simp only [World.call, hm]; exact hlift _ m hm
    | ShutdownLeave => simp only [World.call, hm]; exact hlift _ m hm
    | Pause => simp only [World.call, hm]; exact hlift _ m hm
    | Resume => simp only [World.call, hm]; exact hlift _ m hm
    | SaveState => simp only [World.call, hm]; exact hlift _ m hm
    | RestoreState => simp only [World.call, hm]; exact hlift _ m hm
    | loopQuit => simp only [World.call, hm]; exact hlift _ m hm

theorem not_holds (w : World T) (a p : Nat) (h : w.holds a p = false) (o : StateMachine T)
    (ho : o ∈ w.machines) (hne : o.addr ≠ a) : ∀ e, e ∈ o.states → e.2.ptr ≠ p := by
  intro e he hp
  have hh : w.holds a p = true := by
    simp only [World.holds, List.any_eq_true, Bool.and_eq_true, decide_eq_true_eq]
    exact ⟨o, ho, hne, e, he, hp⟩
  rw [h] at hh
  cases hh

theorem seesRegister_id (o : StateMachine T) (p a : Nat)
    (h : ∀ e, e ∈ o.states → e.2.ptr ≠ p) : o.seesRegister p a = o := by
  have hmap : o.states.map (fun e => (e.1, e.2.seesRegister p a)) = o.states := by
    have : ∀ e, e ∈ o.states → (fun e : T × State T => (e.1, e.2.seesRegister p a)) e = e := by
      intro e he
      have hp := h e he
      simp only [State.seesRegister, hp, if_false]
    rw [List.map_congr_left this, List.map_id']
  cases o
  simp only [StateMachine.seesRegister] at hmap ⊢
  rw [hmap]

theorem somesBefore_mem (ss : List (Option (State T))) (st : State T)
    (h : st ∈ somesBefore ss) : some st ∈ ss := by
  induction ss with
  | nil => simp [somesBefore] at h
  | cons x rest ih =>
    cases x with
    | none => simp [somesBefore] at h
    | some y =>
      simp only [somesBefore, List.mem_cons] at h
      rcases h with e | e
      · rw [e]; exact List.mem_cons_self _ _
      · exact List.mem_cons_of_mem _ (ih e)

theorem registeredOf_mem (ss : List (Option (State T))) (st : State T)
    (h : st ∈ registeredOf ss) : some st ∈ ss := by
  unfold registeredOf at h
  split at h
  · cases h
  · exact somesBefore_mem ss st h

theorem seesRegisters_id (sts : List (State T)) (a : Nat) (o : StateMachine T)
    (h : ∀ st, st ∈ sts → ∀ e, e ∈ o.states → e.2.ptr ≠ st.ptr) :
    sts.foldl (fun o1 st => o1.seesRegister st.ptr a) o = o := by
  induction sts with
  | nil => rfl
  | cons st rest ih =>
    simp only [List.foldl_cons]
    rw [seesRegister_id o st.ptr a (h st (List.mem_cons_self _ _))]
    exact ih (fun st1 h1 => h st1 (List.mem_cons_of_mem _ h1))

theorem world_call_bound (w : World T) (a : Nat) (c : Call T)
    (hk : w.keepsApart a c = true) (h : ∀ m, m ∈ w.machines → m.Bound) :
    ∀ m2, m2 ∈ (w.call a c).w.machines → m2.Bound := by
  have htrig : ∀ m2, m2 ∈ (w.trigger a).w.machines → m2.Bound :=
    world_trigger_inv StateMachine.Bound w a
      (fun m m1 e1 e2 hb => bound_of_same m m1 e1 e2 hb)
      (fun o p n hb => seesTick_bound o p n hb)
      (fun m s hb hs => bound_tick m s hb hs) h
  have hlift : ∀ c1 : Call T, ∀ m, w.machineAt a = some m →
      ∀ m2, m2 ∈ (w.update a (m.call c1).sm (fun o => o)).machines → m2.Bound := by
    intro c1 m hm
    exact world_update_inv StateMachine.Bound w a _ _
      (call_bound m c1 (h m (machineAt_mem w a m hm).1)) (fun o ho _ => h o ho)
  cases hm : w.machineAt a with
  | none =>
    have e : (w.call a c).w = w := by
      cases c <;> simp only [World.call, World.RegisterState, World.RegisterStates, hm]
    rw [e]; exact h
  | some m =>
    have hmb := h m (machineAt_mem w a m hm).1
    cases c with
    | RegisterState s =>
      cases s with
      | none =>
        simp only [World.call, World.RegisterState, hm]
        exact world_update_inv StateMachine.Bound w a _ _
          (RegisterState_bound m none hmb).1 (fun o ho _ => h o ho)
      | some st =>
        have hh : w.holds a st.ptr = false := by
          simpa [World.keepsApart] using hk
        simp only [World.call, World.RegisterState, hm]
        refine world_update_inv StateMachine.Bound w a _ _
          (RegisterState_bound m (some st) hmb).1 ?_
        intro o ho hne
        rw [seesRegister_id o st.ptr a (not_holds w a st.ptr hh o ho hne)]
        exact h o ho
    | RegisterStates ss =>
      have hall : ∀ st, some st ∈ ss → w.holds a st.ptr = false := by
        intro st hst
        simp only [World.keepsApart, List.all_eq_true] at hk
        have := hk (some st) hst
        simpa using this
      simp only [World.call, World.RegisterStates, hm]
      refine world_update_inv StateMachine.Bound w a _ _ (RegisterStates_bound m ss hmb) ?_
      intro o ho hne
      rw [seesRegisters_id (registeredOf ss) a o
        (fun st hst => not_holds w a st.ptr (hall st (registeredOf_mem ss st hst)) o ho hne)]
      exact h o ho
    | tick =>
      simp only [World.call, hm]
      split
      · exact h
      · exact htrig
    | EnableStateTrace enable => simp only [World.call, hm]; exact hlift _ m hm
    | MoveToState k => simp only [World.call, hm]; exact hlift _ m hm
    | SetStartingState k => simp only [World.call, hm]; exact hlift _ m hm
    | SetStoppingState k => simp only [World.call, hm]; exact hlift _ m hm
    | Startup => simp only [World.call, hm]; exact hlift _ m hm
    | ShutdownEnter => simp only [World.call, hm]; exact hlift _ m hm
    | ShutdownLeave => simp only [World.call, hm]; exact hlift _ m hm
    | Pause => simp only [World.call, hm]; exact hlift _ m hm
    | Resume => simp only [World.call, hm]; exact hlift _ m hm
    | SaveState => simp only [World.call, hm]; exact hlift _ m hm
    | RestoreState => simp only [World.call, hm]; exact hlift _ m hm
    | loopQuit => simp only [World.call, hm]; exact hlift _ m hm

theorem NewStateMachine_states [Inhabited T] (addr : Nat) (name : String) (precision : Int)
    (m : StateMachine T) (h : NewStateMachine addr name precision = some m) : m.states = [] := by
  unfold NewStateMachine at h
  split at h
  · cases h
  · cases h; rfl

theorem World.Reachable.wellKeyed_all [Inhabited T] (apart : Bool) (w : World T)
    (h : World.Reachable apart w) : ∀ m, m ∈ w.machines → m.WellKeyed := by
  induction h with
  | empty => intro m hm; cases hm
  | new w addr name precision m _ _ hnew ih =>
    intro m2 hm2
    rcases List.mem_append.mp hm2 with e | e
    · exact ih m2 e
    · rw [List.mem_singleton.mp e]
      intro k s hs
      rw [NewStateMachine_states addr name precision m hnew] at hs
      cases hs
  | call w a c _ _ ih => exact world_call_wellKeyed w a c ih

theorem World.Reachable.bound_all [Inhabited T] (w : World T)
    (h : World.Reachable true w) : ∀ m, m ∈ w.machines → m.Bound := by
  induction h with
  | empty => intro m hm; cases hm
  | new w addr name precision m _ _ hnew ih =>
    intro m2 hm2
    rcases List.mem_append.mp hm2 with e | e
    · exact ih m2 e
    · rw [List.mem_singleton.mp e]
      intro k s hs
      rw [NewStateMachine_states addr name precision m hnew] at hs
      cases hs
  | call w a c _ hk ih => exact world_call_bound w a c (hk rfl) ih

theorem deref_alone (sm : StateMachine T) (p : Option Nat) :
    (⟨[sm]⟩ : World T).deref p = sm.deref p := by
  cases p with
  | none => rfl
  | some a =>
    by_cases ha : a = sm.addr
    · have h2 : sm.addr = a := ha.symm
      simp [World.deref, World.machineAt, StateMachine.deref, ha]
    · have h2 : ¬ sm.addr = a := fun e => ha e.symm
      simp [World.deref, World.machineAt, StateMachine.deref, ha, h2]

theorem machineAt_alone (sm : StateMachine T) :
    (⟨[sm]⟩ : World T).machineAt sm.addr = some sm := by
  simp [World.machineAt]

theorem update_alone (sm m1 : StateMachine T) (g : StateMachine T → StateMachine T) :
    (⟨[sm]⟩ : World T).update sm.addr m1 g = ⟨[m1]⟩ := by
  simp [World.update]

/-- A program of one machine: the trigger of the world is the trigger of
the machine. -/
theorem world_trigger_alone (sm : StateMachine T) :
    (⟨[sm]⟩ : World T).trigger sm.addr =
      ⟨⟨[sm.trigger.sm]⟩, none, sm.trigger.invoked, sm.trigger.logs, sm.trigger.fault⟩ := by
  cases hs : mapGet sm.states sm.GetState with
  | none => simp only [World.trigger, StateMachine.trigger, machineAt_alone, hs]
  | some s =>
    have hd := deref_alone sm s.machine
    simp only [World.trigger, StateMachine.trigger, machineAt_alone, hs, hd, update_alone]
    cases hc : (s.trigger (sm.deref s.machine)).closes with
    | false => simp only [Bool.false_eq_true, if_false]
    | true =>
      rcases deref_cases sm s.machine with h0 | ⟨_, h1⟩
      · rw [h0, State.trigger_nil_owner] at hc
        cases hc
      · simp only [h1, if_true]
        cases hst : sm.stopped with
        | true => simp only [if_true]
        | false =>
          simp [World.close]

/-- A program of one machine: every call on the world is the call on the
machine.  The functions on a single machine are the functions on worlds
read for a machine that is alone. -/
theorem world_call_alone (sm : StateMachine T) (c : Call T) :
    (⟨[sm]⟩ : World T).call sm.addr c =
      ⟨⟨[(sm.call c).sm]⟩, (sm.call c).ret, (sm.call c).invoked, (sm.call c).logs,
        (sm.call c).fault⟩ := by
  cases c with
  | RegisterState s =>
    cases s with
    | none =>
      simp only [World.call, World.RegisterState, machineAt_alone, update_alone,
        StateMachine.call]
    | some st =>
      simp only [World.call, World.RegisterState, machineAt_alone, update_alone,
        StateMachine.call]
  | RegisterStates ss =>
    simp only [World.call, World.RegisterStates, machineAt_alone, update_alone,
      StateMachine.call]
  | tick =>
    simp only [World.call, machineAt_alone, StateMachine.call]
    by_cases h0 : sm.loops = 0
    · simp only [h0, if_true]
    · simp only [h0, if_false]
      exact world_trigger_alone sm
  | EnableStateTrace enable => simp only [World.call, machineAt_alone, update_alone]
  | MoveToState k => simp only [World.call, machineAt_alone, update_alone]
  | SetStartingState k => simp only [World.call, machineAt_alone, update_alone]
  | SetStoppingState k => simp only [World.call, machineAt_alone, update_alone]
  | Startup => simp only [World.call, machineAt_alone, update_alone]
  | ShutdownEnter => simp only [World.call, machineAt_alone, update_alone]
  | ShutdownLeave => simp only [World.call, machineAt_alone, update_alone]
  | Pause => simp only [World.call, machineAt_alone, update_alone]
  | Resume => simp only [World.call, machineAt_alone, update_alone]
  | SaveState => simp only [World.call, machineAt_alone, update_alone]
  | RestoreState => simp only [World.call, machineAt_alone, update_alone]
  | loopQuit => simp only [World.call, machineAt_alone, update_alone]

/-- What `RegisterState` of a State on the machine at `a` does to another
machine that holds the same State: its binding has counter 0 and owner the
machine at `a`. -/
theorem world_register_rebinds (w : World T) (a : Nat) (st : State T)
    (ma m2 : StateMachine T) (k : T) (s2 : State T) (hm : w.machineAt a = some ma)
    (h2 : m2 ∈ (w.call a (Call.RegisterState (some st))).w.machines) (hne : m2.addr ≠ a)
    (hk : mapGet m2.states k = some s2) (hp : s2.ptr = st.ptr) :
    s2.machine = some a ∧ s2.tickCnt = 0 := by
  simp only [World.call, World.RegisterState, hm] at h2
  rcases mem_update w a _ _ m2 h2 with e | ⟨o, _, _, e⟩
  · exfalso
    apply hne
    rw [e]
    exact (machineAt_mem w a ma hm).2
  · rw [e] at hk
    have hk2 : mapGet (o.states.map (fun e => (e.1, e.2.seesRegister st.ptr a))) k =
        (mapGet o.states k).map (fun s => s.seesRegister st.ptr a) :=
      mapGet_map o.states (fun s => s.seesRegister st.ptr a) k
    simp only [StateMachine.seesRegister] at hk
    rw [hk2] at hk
    cases h0 : mapGet o.states k with
    | none => rw [h0] at hk; cases hk
    | some s0 =>
      rw [h0] at hk
      simp only [Option.map_some', Option.some.injEq] at hk
      by_cases hq : s0.ptr = st.ptr
      · simp only [State.seesRegister, hq, if_true] at hk
        rw [← hk]
        exact ⟨rfl, rfl⟩
      · simp only [State.seesRegister, hq, if_false] at hk
        rw [hk] at hq
        exact absurd hp hq

/-- A trigger of a machine whose current state is owned by another machine
runs against that owner and does not panic: the action is invoked, the
counter of the shared State is 1 in both machines, and `stopped` of neither
machine is closed. -/
theorem shared_trigger_runs :
    (sharedStarted.call 1 Call.tick).fault = none ∧
      (sharedStarted.call 1 Call.tick).invoked = [(1, 7)] ∧
      (sharedStarted.call 1 Call.tick).w.machines.map
        (fun m => (m.addr, m.stopped,
          (mapGet m.states "Idle").map (fun s => (s.tickCnt, s.machine)))) =
        [(1, false, some (1, some 2)), (2, false, some (1, some 2))] := by
  decide

/-- C21 (as stated, refuted): two machines are made and one `*State`
(`Idle`) is given to `RegisterState` of the first and then of the second.
The world is one the program reaches, and the entry of the first machine
(at address 1) under `Idle` is owned by the machine at address 2. -/
theorem shared_state_counterexample :
    World.Reachable false sharedWorld ∧
      (sharedWorld.machineAt 1).map
        (fun m => (m.addr, (mapGet m.states "Idle").map (fun s => (s.Name, s.machine)))) =
        some (1, some ("Idle", some 2)) := by
  refine ⟨?_, by decide⟩
  have h1 : World.Reachable false (⟨[freshMachine]⟩ : World String) :=
    World.Reachable.new ⟨[]⟩ 1 "fsm" 10 freshMachine World.Reachable.empty (by decide)
      (by decide)
  have h2 : World.Reachable false twoMachines :=
    World.Reachable.new ⟨[freshMachine]⟩ 2 "other" 10 secondMachine h1 (by decide) (by decide)
  exact World.Reachable.call _ 2 _
    (World.Reachable.call twoMachines 1 (Call.RegisterState (some idleState)) h2
      (fun e => by cases e))
    (fun e => by cases e)

/-- C21 (amended): in every world that `NewStateMachine` and calls on its
machines produce (`RegisterState`, `RegisterStates`, `SetStartingState`,
`SetStoppingState`, `MoveToState`, `SaveState`, `RestoreState`, triggers,
and the others), an entry `s` that a machine `m` reads under key `k` has
`Name` `k`, so `MoveToState k` succeeds and publishes `k`.  If no call has
registered a State that another machine holds, `m` is the owner of `s`.
And registering a State on the machine at `a` makes every other machine's
binding of that State owned by the machine at `a`. -/
theorem entries_named_and_owned [Inhabited T] (apart : Bool) (w : World T)
    (m : StateMachine T) (k : T) (s : State T)
    (hr : World.Reachable apart w) (hm : m ∈ w.machines) (hk : mapGet m.states k = some s) :
    s.Name = k ∧ (m.MoveToState k).ok = true ∧ (m.MoveToState k).sm.GetState = k ∧
      (apart = true → s.machine = some m.addr) ∧
      (∀ (a : Nat) (st : State T) (ma m2 : StateMachine T) (k2 : T) (s2 : State T),
        w.machineAt a = some ma →
        m2 ∈ (w.call a (Call.RegisterState (some st))).w.machines → m2.addr ≠ a →
        mapGet m2.states k2 = some s2 → s2.ptr = st.ptr → s2.machine = some a) := by
  have hw := World.Reachable.wellKeyed_all apart w hr m hm
  refine ⟨hw k s hk, ?_, ?_, ?_, ?_⟩
  · unfold StateMachine.MoveToState
    by_cases hc : m.GetState = k
    · simp only [hc, if_true]
    · simp only [hc, if_false, hk]
  · rw [MoveToState_of_key m k s hw hk]
    rfl
  · intro ha
    subst ha
    exact World.Reachable.bound_all w hr m hm k s hk
  · intro a st ma m2 k2 s2 h1 h2 h3 h4 h5
    exact (world_register_rebinds w a st ma m2 k2 s2 h1 h2 h3 h4 h5).1

theorem entries_named_and_owned_witness :
    World.Reachable true apartWorld ∧ idleOnlyMachine ∈ apartWorld.machines ∧
      mapGet idleOnlyMachine.states "Idle" = some { idleState with machine := some 1 } ∧
      ({ idleState with machine := some 1 } : State String).Name = "Idle" ∧
      (idleOnlyMachine.MoveToState "Idle").ok = true ∧
      (idleOnlyMachine.MoveToState "Idle").sm.GetState = "Idle" ∧
      ({ idleState with machine := some 1 } : State String).machine =
        some idleOnlyMachine.addr :=
  have h1 : World.Reachable true (⟨[freshMachine]⟩ : World String) :=
    World.Reachable.new ⟨[]⟩ 1 "fsm" 10 freshMachine World.Reachable.empty (by decide)
      (by decide)
  have h2 : World.Reachable true twoMachines :=
    World.Reachable.new ⟨[freshMachine]⟩ 2 "other" 10 secondMachine h1 (by decide) (by decide)
  have hr : World.Reachable true apartWorld :=
    World.Reachable.call _ 2 _
      (World.Reachable.call twoMachines 1 (Call.RegisterState (some idleState)) h2
        (fun _ => by decide))
      (fun _ => by decide)
  have h := entries_named_and_owned true apartWorld idleOnlyMachine "Idle"
    { idleState with machine := some 1 } hr (by decide) (by decide)
  ⟨hr, by decide, by decide, h.1, h.2.1, h.2.2.1, h.2.2.2.1 rfl⟩

end Worlds

end Pareto
